import Mathlib

/-!
Verification of the markdown rendering and text-transform pipeline of the
`md_editor` repository (src/src/lib/markdown.ts and src/src/lib/tableFormatter.ts).

JavaScript strings are embedded as `List Char`; JavaScript numbers are embedded
as `ℚ` (exact rationals) where fractional arithmetic occurs and as `ℕ`/`ℤ` where
the source only works with integers.  Browser-provided DOM trees are embedded as
an explicit tree type (`HNode`); functions that in the source parse an HTML
string and walk its node tree are stated over the tree directly.
-/

namespace MdEditor

/-- JavaScript strings, embedded as lists of characters. -/
abbrev Str := List Char

/-- Conversion from Lean string literals to the embedding. -/
def str (s : String) : Str := s.data

/-- The JavaScript `\s` character class (whitespace, as used by `trim`,
`\s` in regexes, and blank-line tests).  ASCII whitespace plus the common
Unicode space characters. -/
def isJsSpace (c : Char) : Bool :=
  c = ' ' || c = '\t' || c = '\n' || c = '\r' || c = '\x0b' || c = '\x0c' ||
  c = '\u00a0' || c = '\u1680' || ('\u2000' ≤ c && c ≤ '\u200a') ||
  c = '\u2028' || c = '\u2029' || c = '\u202f' || c = '\u205f' ||
  c = '\u3000' || c = '\ufeff'

/-- JavaScript `String.prototype.trim`: drop leading and trailing whitespace. -/
def jsTrim (s : Str) : Str :=
  ((s.dropWhile isJsSpace).reverse.dropWhile isJsSpace).reverse

/-- JavaScript `markdown.split(/\r?\n/u)`: split into lines at `\n`,
swallowing a `\r` that immediately precedes the `\n`. -/
def splitLinesRN : Str → List Str
  | [] => [[]]
  | '\r' :: '\n' :: rest => [] :: splitLinesRN rest
  | '\n' :: rest => [] :: splitLinesRN rest
  | c :: rest =>
    match splitLinesRN rest with
    | l :: ls => (c :: l) :: ls
    | [] => [[c]]

/-- JavaScript `lines.join("\n")`. -/
def joinLines : List Str → Str
  | [] => []
  | [l] => l
  | l :: ls => l ++ '\n' :: joinLines ls

/-! ## Table formatter (src/src/lib/tableFormatter.ts) -/

/-- A cell of a GFM separator row once trimmed: optional leading colon,
at least three hyphens, optional trailing colon
(the `:?-{3,}:?` core of `TABLE_SEPARATOR_PATTERN`, surrounded by `\s*`). -/
def isSepCell (p : Str) : Bool :=
  let t := jsTrim p
  let t1 := match t with
    | ':' :: rest => rest
    | other => other
  let t2 := match t1.getLast? with
    | some ':' => t1.dropLast
    | _ => t1
  3 ≤ t2.length && t2.all (· = '-')

/-- `TABLE_SEPARATOR_PATTERN = /^\s*\|?(?:\s*:?-{3,}:?\s*\|)+\s*:?-{3,}:?\s*\|?\s*$/u`.
The anchored pattern accepts exactly the strings of shape
`ws [|] cell (| cell)+ [|] ws` with at least two cells: splitting at every
`'|'`, all interior parts must be separator cells, the first and last part
must each be a separator cell or pure whitespace (consumed by the optional
leading/trailing `|` branch), and at least two cells must result. -/
def sepLineMatch (line : Str) : Bool :=
  let parts := line.splitOn '|'
  match parts with
  | [] => false
  | [_] => false
  | first :: more =>
    let last := more.getLastD []
    let interior := more.dropLast
    let firstCell := isSepCell first
    let lastCell := isSepCell last
    interior.all isSepCell &&
    (firstCell || first.all isJsSpace) &&
    (lastCell || last.all isJsSpace) &&
    2 ≤ interior.length + (if firstCell then 1 else 0) + (if lastCell then 1 else 0)

/-- `parseCells`: trim, strip one leading and one trailing `|`, split on `|`,
trim every cell. -/
def parseCells (line : Str) : List Str :=
  let t := jsTrim line
  let t1 := match t with
    | '|' :: rest => rest
    | other => other
  let t2 := match t1.getLast? with
    | some '|' => t1.dropLast
    | _ => t1
  (t2.splitOn '|').map jsTrim

/-- JavaScript `cell.padEnd(width)` (pad with spaces on the right, never
truncating). -/
def padEnd (cell : Str) (width : ℕ) : Str :=
  cell ++ List.replicate (width - cell.length) ' '

/-- `formatRow`: re-emit a row as `| c₀ | c₁ | … |`, each cell padded to its
column width (`widths[index] ?? cell.length`). -/
def formatRow (cells : List Str) (widths : List ℕ) : Str :=
  str "| " ++
    List.intercalate (str " | ")
      (cells.enum.map (fun ic => padEnd ic.2 (widths.getD ic.1 ic.2.length))) ++
  str " |"

/-- `buildSeparatorCell`: rebuild one separator cell at the given width,
preserving the alignment colons of the template. -/
def buildSeparatorCell (width : ℕ) (template : Str) : Str :=
  let trimmed := jsTrim template
  let left : Bool := match trimmed with
    | ':' :: _ => true
    | _ => false
  let right : Bool := match trimmed.getLast? with
    | some ':' => true
    | _ => false
  let bodyLength := max 3 width
  if left && right then
    ':' :: List.replicate (max 1 (bodyLength - 2)) '-' ++ [':']
  else if left then
    ':' :: List.replicate (max 2 (bodyLength - 1)) '-'
  else if right then
    List.replicate (max 2 (bodyLength - 1)) '-' ++ [':']
  else
    List.replicate bodyLength '-'

/-- A line consumed into the table body:
`lines[cursor].includes("|") && lines[cursor].trim().length > 0`. -/
def tableBodyLine (l : Str) : Bool :=
  l.contains '|' && 0 < (jsTrim l).length

/-- Format one recognised table chunk (header, separator and body lines):
normalise all rows to the maximal cell count, compute column widths as
`max(3, …)` over all rows except the separator row, then re-emit header,
rebuilt separator and data rows. -/
def formatTableChunk (tableLines : List Str) : List Str :=
  let rows := tableLines.map parseCells
  let columnCount := rows.foldl (fun a r => max a r.length) 0
  let normalizedRows := rows.map (fun r => (List.range columnCount).map (fun c => r.getD c []))
  let widths := (List.range columnCount).map (fun c =>
    normalizedRows.enum.foldl
      (fun a rr => max a (if rr.1 = 1 then 0 else (rr.2.getD c []).length)) 3)
  let separatorCells := normalizedRows.getD 1 []
  let sepRow :=
    str "| " ++
      List.intercalate (str " | ")
        (separatorCells.enum.map (fun cc => buildSeparatorCell (widths.getD cc.1 3) cc.2)) ++
    str " |"
  formatRow (normalizedRows.getD 0 []) widths :: sepRow ::
    (normalizedRows.drop 2).map (fun r => formatRow r widths)

/-- The `while (index < lines.length)` loop of `formatMarkdownTables`,
with explicit fuel (the loop advances by at least one line per iteration, so
fuel `lines.length` always suffices).  A line pair is a table candidate when
the header contains `|` and the following line matches the separator pattern
(the JavaScript falsiness test `!separator` on an empty-string separator is
subsumed: the empty string never matches the pattern). -/
def processTablesF : ℕ → List Str → List Str
  | 0, ls => ls
  | _ + 1, [] => []
  | fuel + 1, header :: rest =>
    match rest with
    | [] => header :: processTablesF fuel rest
    | sep :: rest2 =>
      if header.contains '|' && sepLineMatch sep then
        let body := rest2.takeWhile tableBodyLine
        formatTableChunk (header :: sep :: body) ++
          processTablesF fuel (rest2.dropWhile tableBodyLine)
      else
        header :: processTablesF fuel rest

/-- `formatMarkdownTables`: split into lines, run the table-detection loop,
join with `"\n"`. -/
def formatMarkdownTables (markdown : Str) : Str :=
  let lines := splitLinesRN markdown
  joinLines (processTablesF lines.length lines)

/-- A line list contains no table candidate: no line containing `'|'` is
immediately followed by a line matching the separator pattern. -/
def noTableCandidates : List Str → Bool
  | [] => true
  | [_] => true
  | a :: b :: t => !(a.contains '|' && sepLineMatch b) && noTableCandidates (b :: t)

theorem splitLinesRN_ne_nil (s : Str) : splitLinesRN s ≠ [] := by
  induction s using splitLinesRN.induct <;> simp_all [splitLinesRN]

theorem joinLines_cons_cons (a b : Str) (t : List Str) :
    joinLines (a :: b :: t) = a ++ '\n' :: joinLines (b :: t) := rfl

/-- Splitting a carriage-return-free string at newlines and re-joining with
`'\n'` restores the string. -/
theorem joinLines_splitLinesRN (s : Str) (h : '\r' ∉ s) :
    joinLines (splitLinesRN s) = s := by
  induction s using splitLinesRN.induct with
  | case1 => rfl
  | case2 rest ih => simp at h
  | case3 rest ih =>
    have hr : '\r' ∉ rest := fun hm => h (List.mem_cons_of_mem _ hm)
    obtain ⟨l, ls, hls⟩ := List.exists_cons_of_ne_nil (splitLinesRN_ne_nil rest)
    simp only [splitLinesRN]
    rw [hls, joinLines_cons_cons, ← hls, ih hr]
    rfl
  | case4 c rest h1 h2 l ls heq ih =>
    have hr : '\r' ∉ rest := fun hm => h (List.mem_cons_of_mem _ hm)
    rw [show splitLinesRN (c :: rest) = (c :: l) :: ls by simp only [splitLinesRN, heq]]
    have ihe : joinLines (l :: ls) = rest := by rw [← heq]; exact ih hr
    cases ls with
    | nil =>
      simp only [joinLines] at ihe ⊢
      rw [ihe]
    | cons l2 t2 =>
      rw [joinLines_cons_cons] at ihe ⊢
      simp [ihe]
  | case5 c rest h1 h2 heq ih => exact absurd heq (splitLinesRN_ne_nil rest)

theorem processTablesF_nil (fuel : ℕ) : processTablesF fuel [] = [] := by
  cases fuel <;> rfl

/-- When no adjacent line pair forms a table candidate, the formatting loop
emits every line unchanged. -/
theorem processTablesF_id (fuel : ℕ) :
    ∀ ls : List Str, ls.length ≤ fuel → noTableCandidates ls = true →
      processTablesF fuel ls = ls := by
  induction fuel with
  | zero =>
    intro ls hlen _
    have : ls = [] := List.length_eq_zero.mp (Nat.le_zero.mp hlen)
    subst this; rfl
  | succ fuel ih =>
    intro ls hlen hnc
    cases ls with
    | nil => rfl
    | cons a t =>
      cases t with
      | nil => simp [processTablesF, processTablesF_nil]
      | cons b t2 =>
        simp only [noTableCandidates, Bool.and_eq_true, Bool.not_eq_true'] at hnc
        simp only [processTablesF, hnc.1, Bool.false_eq_true, if_false]
        rw [ih (b :: t2) (by simpa using Nat.le_of_succ_le_succ hlen) hnc.2]

/-- Pass-through: on a carriage-return-free input with no table candidate,
`formatMarkdownTables` is the identity. -/
theorem formatMarkdownTables_id (s : Str) (h1 : '\r' ∉ s)
    (h2 : noTableCandidates (splitLinesRN s) = true) :
    formatMarkdownTables s = s := by
  show joinLines (processTablesF (splitLinesRN s).length (splitLinesRN s)) = s
  rw [processTablesF_id _ _ le_rfl h2, joinLines_splitLinesRN s h1]

/-- C5 counterexample: `formatMarkdownTables` is not idempotent.  Formatting the
table `|a|b| / |:---:|---| / |---|---| / |x|yyyyy|` produces a separator row
`| :-: | ----- |` whose centre cell has fewer than three hyphens; on the second
pass that row no longer matches the separator pattern, the all-hyphen data row
below it is picked up as a fresh separator, and the output changes again. -/
theorem C5_counterexample_formatMarkdownTables_not_idempotent :
    formatMarkdownTables (formatMarkdownTables (str "|a|b|\n|:---:|---|\n|---|---|\n|x|yyyyy|")) ≠
      formatMarkdownTables (str "|a|b|\n|:---:|---|\n|---|---|\n|x|yyyyy|") := by
  decide

/-- C5 (amended): `formatMarkdownTables` is idempotent on every input that
contains no carriage return and no table candidate (no line containing `'|'`
immediately followed by a line matching the separator pattern); on such inputs
a single application is already the identity.  Unrestricted idempotence fails
(see the counterexample): a formatted table whose separator loses hyphens below
the three-hyphen threshold is re-parsed differently on the second pass, and
carriage-return line endings are normalised to `'\n'` by the first pass. -/
theorem C5_formatMarkdownTables_idempotent_on_noncandidates (x : Str)
    (h1 : '\r' ∉ x) (h2 : noTableCandidates (splitLinesRN x) = true) :
    formatMarkdownTables (formatMarkdownTables x) = formatMarkdownTables x := by
  rw [formatMarkdownTables_id x h1 h2]
  exact formatMarkdownTables_id x h1 h2

theorem C5_witness :
    '\r' ∉ str "hello world" ∧
      noTableCandidates (splitLinesRN (str "hello world")) = true ∧
      formatMarkdownTables (formatMarkdownTables (str "hello world")) =
        formatMarkdownTables (str "hello world") :=
  ⟨by decide, by decide,
    C5_formatMarkdownTables_idempotent_on_noncandidates _ (by decide) (by decide)⟩

/-- C6 counterexample: pass-through is not byte-for-byte on inputs with
carriage-return–line-feed endings.  The input `"a\r\nb"` contains no table
candidate, yet `formatMarkdownTables` returns `"a\nb"`: the function splits on
`/\r?\n/` and re-joins with `"\n"`, so CRLF endings are normalised even when
every line passes through unchanged. -/
theorem C6_counterexample_crlf_not_byte_identical :
    noTableCandidates (splitLinesRN (str "a\r\nb")) = true ∧
      formatMarkdownTables (str "a\r\nb") ≠ str "a\r\nb" := by
  decide

/-- C6 (amended): for every input string containing no carriage return and no
table candidate (no line containing `'|'` immediately followed by a line
matching the GFM separator pattern), `formatMarkdownTables` returns its input
byte-for-byte unchanged; this covers malformed table candidates, which fail the
separator test and pass through.  Inputs with CRLF line endings are the
exception: lines are unchanged but the line endings are normalised to `'\n'`. -/
theorem C6_formatMarkdownTables_passthrough (x : Str)
    (h1 : '\r' ∉ x) (h2 : noTableCandidates (splitLinesRN x) = true) :
    formatMarkdownTables x = x :=
  formatMarkdownTables_id x h1 h2

theorem C6_witness :
    '\r' ∉ str "No table here\njust text" ∧
      noTableCandidates (splitLinesRN (str "No table here\njust text")) = true ∧
      formatMarkdownTables (str "No table here\njust text") = str "No table here\njust text" :=
  ⟨by decide, by decide, C6_formatMarkdownTables_passthrough _ (by decide) (by decide)⟩

/-! ## Footnotes (src/src/lib/markdown.ts, `extractFootnotes` / `applyFootnotes`) -/

/-- The character class `[a-z0-9_-]` of normalised footnote ids. -/
def isFootnoteIdChar (c : Char) : Bool :=
  ('a' ≤ c && c ≤ 'z') || ('0' ≤ c && c ≤ '9') || c = '_' || c = '-'

/-- JavaScript `value.replace(/[^a-z0-9_-]+/gu, "-")`: every maximal run of
characters outside the id class becomes a single hyphen.  The boolean records
whether the previous character was inside such a run. -/
def replaceRunsGo : Bool → List Char → Str
  | _, [] => []
  | inRun, c :: rest =>
    if isFootnoteIdChar c then c :: replaceRunsGo false rest
    else if inRun then replaceRunsGo true rest
    else '-' :: replaceRunsGo true rest

/-- `normalizeFootnoteId`: lowercase, trim, replace disallowed runs by `-`. -/
def normalizeFootnoteId (value : Str) : Str :=
  replaceRunsGo false (jsTrim (value.map Char.toLower))

/-- `FOOTNOTE_DEFINITION_PATTERN = /^\[\^([^\]]+)\]:\s*(.*)$/u`: on success
returns the raw id (non-empty, no `]`) and the rest of the line after the
leading whitespace. -/
def parseFootnoteDefLine (l : Str) : Option (Str × Str) :=
  match l with
  | '[' :: '^' :: rest =>
    let id := rest.takeWhile (· ≠ ']')
    match rest.dropWhile (· ≠ ']') with
    | ']' :: ':' :: rest2 => if id.isEmpty then none else some (id, rest2.dropWhile isJsSpace)
    | _ => none
  | _ => none

/-- The continuation-line test `/^\s{2,}|\t/u.test(line)` of `extractFootnotes`,
exactly as the source has it: the line starts with at least two whitespace
characters, or — because the second alternative is unanchored — the line
contains a tab anywhere. -/
def isContinuationLine (l : Str) : Bool :=
  (match l with
   | a :: b :: _ => isJsSpace a && isJsSpace b
   | _ => false) || l.contains '\t'

/-- The continuation criterion as the claim (and spec §4.1) states it: the line
is indented by at least two spaces or a tab. -/
def claimedContinuationLine (l : Str) : Bool :=
  l.take 2 = str "  " || l.take 1 = str "\t"

/-- JavaScript `parts.join(" ")`. -/
def joinSpace : List Str → Str
  | [] => []
  | [p] => p
  | p :: ps => p ++ ' ' :: joinSpace ps

/-- JavaScript `Map.prototype.set` on an association list: overwrite in place
if the key exists, else append. -/
def mapSet (m : List (Str × Str)) (k v : Str) : List (Str × Str) :=
  if (m.lookup k).isSome then m.map (fun p => if p.1 = k then (k, v) else p)
  else m ++ [(k, v)]

/-- The line loop of `extractFootnotes`, with explicit fuel (each iteration
consumes at least the current line, so fuel `lines.length` suffices): non-matching
lines go to the body; a definition line swallows the following run of
continuation lines, joins the trimmed parts with single spaces and stores the
trimmed result under the normalised id. -/
def extractLoopF : ℕ → List Str → List (Str × Str) → List Str × List (Str × Str)
  | 0, ls, defs => (ls, defs)
  | _ + 1, [], defs => ([], defs)
  | fuel + 1, line :: rest, defs =>
    match parseFootnoteDefLine line with
    | none =>
      let r := extractLoopF fuel rest defs
      (line :: r.1, r.2)
    | some (rawId, restText) =>
      let id := normalizeFootnoteId rawId
      if id.isEmpty then
        let r := extractLoopF fuel rest defs
        (line :: r.1, r.2)
      else
        let conts := rest.takeWhile isContinuationLine
        let rest2 := rest.dropWhile isContinuationLine
        let body := jsTrim (joinSpace (restText :: conts.map jsTrim))
        extractLoopF fuel rest2 (mapSet defs id body)

/-- `FOOTNOTE_REFERENCE_PATTERN = /\[\^([^\]]+)\]/gu` matched at the start of
the string: returns the raw id and the remainder after the match. -/
def refMatchAt (s : Str) : Option (Str × Str) :=
  match s with
  | '[' :: '^' :: rest =>
    let id := rest.takeWhile (· ≠ ']')
    match rest.dropWhile (· ≠ ']') with
    | ']' :: rest2 => if id.isEmpty then none else some (id, rest2)
    | _ => none
  | _ => none

/-- Global replacement of inline footnote references by placeholder tokens
(`bodyLines.join("\n").replace(FOOTNOTE_REFERENCE_PATTERN, …)`), with fuel
(each step consumes at least one character).  An id normalising to the empty
string keeps the original matched text. -/
def replaceFootnoteRefsF : ℕ → Str → Str
  | 0, s => s
  | _ + 1, [] => []
  | fuel + 1, c :: cs =>
    match refMatchAt (c :: cs) with
    | some (refId, rest) =>
      let normalized := normalizeFootnoteId refId
      (if normalized.isEmpty then '[' :: '^' :: refId ++ [']']
       else str "@@FOOTNOTE_REF:" ++ normalized ++ str "@@") ++
        replaceFootnoteRefsF fuel rest
    | none => c :: replaceFootnoteRefsF fuel cs

/-- Result of `extractFootnotes`. -/
structure ExtractedFootnotes where
  bodyMarkdown : Str
  definitions : List (Str × Str)
  deriving DecidableEq

/-- `extractFootnotes`: split into lines, collect definitions (with their
continuation runs), re-join the remaining body lines and replace inline
references with placeholder tokens. -/
def extractFootnotes (markdown : Str) : ExtractedFootnotes :=
  let lines := splitLinesRN markdown
  let r := extractLoopF lines.length lines []
  let body := joinLines r.1
  { bodyMarkdown := replaceFootnoteRefsF body.length body, definitions := r.2 }

/-- C7: the code contradicts the claimed continuation rule.  The line
`foo<TAB>bar` is not indented at all — the claimed criterion rejects it — yet
the unanchored `\t` alternative of `/^\s{2,}|\t/` accepts it, so after the
definition `[^a]: start` the code consumes `foo<TAB>bar` as a continuation
line: the stored definition body becomes `start foo<TAB>bar` and the line
disappears from the document body. -/
theorem C7_continuation_interior_tab_bug :
    claimedContinuationLine (str "foo\tbar") = false ∧
      isContinuationLine (str "foo\tbar") = true ∧
      (extractFootnotes (str "[^a]: start\nfoo\tbar")).definitions =
        [(str "a", str "start foo\tbar")] ∧
      (extractFootnotes (str "[^a]: start\nfoo\tbar")).bodyMarkdown = [] := by
  decide

/-- JavaScript number formatting of a natural number. -/
def natStr (n : ℕ) : Str := (Nat.repr n).data

/-- The token regex `/@@FOOTNOTE_REF:([a-z0-9_-]+)@@/gu` matched at the start of
the string: returns the captured id and the remainder after the match. -/
def tokenMatchAt (s : Str) : Option (Str × Str) :=
  if s.take 15 = str "@@FOOTNOTE_REF:" then
    let rest := s.drop 15
    let id := rest.takeWhile isFootnoteIdChar
    let rest2 := rest.dropWhile isFootnoteIdChar
    if !id.isEmpty && rest2.take 2 = str "@@" then some (id, rest2.drop 2) else none
  else none

/-- The `<sup>` reference markup emitted for a resolved placeholder. -/
def supRef (id : Str) (number : ℕ) : Str :=
  str "<sup class=\"footnote-ref\" id=\"fnref-" ++ id ++ str "\"><a href=\"#fn-" ++ id ++
    str "\">[" ++ natStr number ++ str "]</a></sup>"

/-- The global token replacement of `applyFootnotes`, with fuel (each step
consumes at least one character): every matched placeholder is replaced by
`<sup>` markup numbered by first-seen order of its normalised id; `order`
accumulates the ids in first-seen order.  (`normalizeFootnoteId` on a capture
of `[a-z0-9_-]+` is the identity, so the empty-normalisation branch of the
source, which returns an empty replacement, is unreachable but embedded.) -/
def replaceRefTokensF : ℕ → Str → List Str → Str × List Str
  | 0, s, order => (s, order)
  | _ + 1, [], order => ([], order)
  | fuel + 1, c :: cs, order =>
    match tokenMatchAt (c :: cs) with
    | some (id, rest) =>
      let normalized := normalizeFootnoteId id
      if normalized.isEmpty then replaceRefTokensF fuel rest order
      else
        let order1 := if normalized ∈ order then order else order ++ [normalized]
        let index := if normalized ∈ order then order.indexOf normalized else order.length
        let r := replaceRefTokensF fuel rest order1
        (supRef normalized (index + 1) ++ r.1, r.2)
    | none =>
      let r := replaceRefTokensF fuel cs order
      (c :: r.1, r.2)

/-- Modelled from the spec: the collaborator `marked.parseInline` renders a
footnote body as inline Markdown.  The theorems here evaluate it only on plain
text with no Markdown syntax (`Missing footnote: {id}` bodies, where the id is
drawn from `[a-z0-9_-]+`), on which inline rendering is the identity, so it is
modelled as the identity function. -/
def parseInlineModel (s : Str) : Str := s

/-- One `<li>` of the footnote list: the rendered definition body — or the
literal `Missing footnote: {id}` when the stored body is absent or empty —
followed by a back-reference link. -/
def footnoteItem (definitions : List (Str × Str)) (id : Str) : Str :=
  let source := (definitions.lookup id).getD []
  let rendered := parseInlineModel (if source.isEmpty then str "Missing footnote: " ++ id else source)
  str "<li id=\"fn-" ++ id ++ str "\">" ++ rendered ++
    str " <a class=\"footnote-backref\" href=\"#fnref-" ++ id ++ str "\">↩</a></li>"

/-- The trailing footnotes section markup. -/
def footnoteSection (order : List Str) (definitions : List (Str × Str)) : Str :=
  str "<section class=\"footnotes\"><hr /><ol>" ++
    (order.map (footnoteItem definitions)).flatten ++ str "</ol></section>"

/-- `applyFootnotes`: replace placeholder tokens, then append the footnotes
section exactly when at least one placeholder was resolved to a number. -/
def applyFootnotes (rawHtml : Str) (definitions : List (Str × Str)) : Str :=
  let r := replaceRefTokensF rawHtml.length rawHtml []
  if r.2.isEmpty then r.1 else r.1 ++ footnoteSection r.2 definitions

/-- Occurrence of `p` as a contiguous substring of `s`. -/
def occursIn (p s : Str) : Prop := ∃ a b : Str, s = a ++ p ++ b

theorem occursIn_append_left (p s t : Str) (h : occursIn p s) : occursIn p (t ++ s) := by
  obtain ⟨a, b, rfl⟩ := h
  exact ⟨t ++ a, b, by simp⟩

theorem occursIn_append_right (p s t : Str) (h : occursIn p s) : occursIn p (s ++ t) := by
  obtain ⟨a, b, rfl⟩ := h
  exact ⟨a, b ++ t, by simp⟩

/-- The footnote item for an id with no stored definition contains the literal
`Missing footnote: {id}` text. -/
theorem occursIn_missing_footnoteItem (defs : List (Str × Str)) (id : Str)
    (h : defs.lookup id = none) :
    occursIn (str "Missing footnote: " ++ id) (footnoteItem defs id) := by
  refine ⟨str "<li id=\"fn-" ++ id ++ str "\">",
    str " <a class=\"footnote-backref\" href=\"#fnref-" ++ id ++ str "\">↩</a></li>", ?_⟩
  simp [footnoteItem, h, parseInlineModel]

/-- The footnote section for an order containing an id with no stored
definition contains the literal `Missing footnote: {id}` text. -/
theorem occursIn_missing_footnoteSection (order : List Str) (defs : List (Str × Str))
    (id : Str) (hmem : id ∈ order) (h : defs.lookup id = none) :
    occursIn (str "Missing footnote: " ++ id) (footnoteSection order defs) := by
  obtain ⟨u, v, rfl⟩ := List.append_of_mem hmem
  simp only [footnoteSection, List.map_append, List.map_cons, List.flatten_append,
    List.flatten_cons]
  apply occursIn_append_right
  apply occursIn_append_left
  apply occursIn_append_left
  apply occursIn_append_right
  exact occursIn_missing_footnoteItem defs id h

/-- C8: `applyFootnotes` never fails on an unresolved reference.  The output is
the token-replaced html, with the footnotes `<section>` appended exactly when
at least one placeholder was resolved (the first-seen order of resolved ids is
non-empty); and every resolved id with no stored definition contributes a list
item containing the literal text `Missing footnote: {id}`. -/
theorem C8_applyFootnotes_missing_and_section (html : Str) (defs : List (Str × Str)) :
    ((replaceRefTokensF html.length html []).2 = [] →
        applyFootnotes html defs = (replaceRefTokensF html.length html []).1) ∧
      ((replaceRefTokensF html.length html []).2 ≠ [] →
        applyFootnotes html defs =
          (replaceRefTokensF html.length html []).1 ++
            footnoteSection (replaceRefTokensF html.length html []).2 defs) ∧
      (∀ id, id ∈ (replaceRefTokensF html.length html []).2 → defs.lookup id = none →
        occursIn (str "Missing footnote: " ++ id) (applyFootnotes html defs)) := by
  refine ⟨fun h => ?_, fun h => ?_, fun id hmem hdef => ?_⟩
  · simp [applyFootnotes, h]
  · simp [applyFootnotes, List.isEmpty_iff, h]
  · have hne : (replaceRefTokensF html.length html []).2 ≠ [] :=
      List.ne_nil_of_mem hmem
    have : applyFootnotes html defs =
        (replaceRefTokensF html.length html []).1 ++
          footnoteSection (replaceRefTokensF html.length html []).2 defs := by
      simp [applyFootnotes, List.isEmpty_iff, hne]
    rw [this]
    exact occursIn_append_left _ _ _
      (occursIn_missing_footnoteSection _ defs id hmem hdef)

theorem C8_witness :
    str "a" ∈ (replaceRefTokensF (str "x@@FOOTNOTE_REF:a@@").length (str "x@@FOOTNOTE_REF:a@@") []).2 ∧
      ([] : List (Str × Str)).lookup (str "a") = none ∧
      occursIn (str "Missing footnote: " ++ str "a")
        (applyFootnotes (str "x@@FOOTNOTE_REF:a@@") []) :=
  ⟨by decide, rfl,
    (C8_applyFootnotes_missing_and_section (str "x@@FOOTNOTE_REF:a@@") []).2.2
      (str "a") (by decide) rfl⟩

/-! ## Bionic reading (src/src/lib/markdown.ts, `applyBionicReading` and
friends).  The browser DOM is embedded as the tree type `HNode`; the
`DOMParser`/`TreeWalker` plumbing of the source corresponds to quantifying over
trees and to the recursive walk below. -/

/-- A DOM node: a text node, or an element with tag name, attributes and
children. -/
inductive HNode where
  | text : Str → HNode
  | elem : Str → List (Str × Str) → List HNode → HNode

/-- First character class of `BIONIC_WORD_PATTERN =
/([A-Za-zÀ-ÖØ-öø-ÿ0-9][A-Za-zÀ-ÖØ-öø-ÿ0-9'’-]*)/gu`: a match must start with a
letter (including the Latin-1 ranges) or digit. -/
def isBionicWordStart (c : Char) : Bool :=
  ('A' ≤ c && c ≤ 'Z') || ('a' ≤ c && c ≤ 'z') || ('0' ≤ c && c ≤ '9') ||
  ('À' ≤ c && c ≤ 'Ö') || ('Ø' ≤ c && c ≤ 'ö') ||
  ('ø' ≤ c && c ≤ 'ÿ')

/-- Continuation character class of `BIONIC_WORD_PATTERN`: the start class plus
straight apostrophe, curly apostrophe and hyphen. -/
def isBionicWordChar (c : Char) : Bool :=
  isBionicWordStart c || c = '\'' || c = '’' || c = '-'

/-- JavaScript `Math.round` on an exact rational: floor of `x + 1/2`
(ties round toward positive infinity). -/
def jsRound (q : ℚ) : ℤ := ⌊q + 1/2⌋

/-- The source's `clamp(value, min, max) = Math.min(max, Math.max(min, value))`. -/
def clampQ (value lo hi : ℚ) : ℚ := min hi (max lo value)

/-- `focusLength = clamp(Math.round(word.length * fixation), 1, word.length)`.
Only the length of the word enters. -/
def focusLength (fixation : ℚ) (len : ℕ) : ℕ :=
  (min (len : ℤ) (max 1 (jsRound (len * fixation)))).toNat

/-- The wrapper node built by `transformTextNode` for a qualifying word: a
`span.bionic-word` holding a `strong.bionic-focus` with the first `focusLength`
characters and, only when some characters remain, a `span.bionic-rest` with the
rest; a word shorter than `minWordLength` stays a plain text node. -/
def renderWordNode (fixation : ℚ) (minWordLength : ℕ) (w : Str) : HNode :=
  if minWordLength ≤ w.length then
    let f := focusLength fixation w.length
    .elem (str "span") [(str "class", str "bionic-word")]
      (.elem (str "strong") [(str "class", str "bionic-focus")] [.text (w.take f)] ::
        (if f < w.length then
          [.elem (str "span") [(str "class", str "bionic-rest")] [.text (w.drop f)]]
        else []))
  else .text w

/-- `input.matchAll(BIONIC_WORD_PATTERN)` as a scanner: walk the characters
from offset `i`; at a start character take the maximal greedy run of word
characters as a match and continue after it, otherwise advance one character.
Fuel decreases every step, so fuel `cs.length` suffices. -/
def matchGoF : ℕ → ℕ → List Char → List (ℕ × Str)
  | 0, _, _ => []
  | _ + 1, _, [] => []
  | fuel + 1, i, c :: cs =>
    if isBionicWordStart c then
      let w := c :: cs.takeWhile isBionicWordChar
      (i, w) :: matchGoF fuel (i + w.length) (cs.dropWhile isBionicWordChar)
    else matchGoF fuel (i + 1) cs

/-- All regex matches of `BIONIC_WORD_PATTERN` in `s`, with their indices. -/
def wordMatches (s : Str) : List (ℕ × Str) := matchGoF s.length 0 s

/-- The fragment-building loop of `transformTextNode`: before each match emit
the text sliced between the cursor and the match index, then the word node;
after the last match emit the remaining tail slice. -/
def buildFrag (fixation : ℚ) (m : ℕ) (s : Str) : List (ℕ × Str) → ℕ → List HNode
  | [], cursor => if cursor < s.length then [.text (s.drop cursor)] else []
  | (i, w) :: ms, cursor =>
    (if cursor < i then [.text ((s.drop cursor).take (i - cursor))] else []) ++
      (renderWordNode fixation m w :: buildFrag fixation m s ms (i + w.length))

/-- `transformTextNode` on the text content of one text node: whitespace-only
content and content without matches are left as a single unchanged text node,
otherwise the node is replaced by the built fragment. -/
def transformTextNode (fixation : ℚ) (minWordLength : ℕ) (s : Str) : List HNode :=
  if (jsTrim s).isEmpty then [.text s]
  else if (wordMatches s).isEmpty then [.text s]
  else buildFrag fixation minWordLength s (wordMatches s) 0

/-- A token of the claimed word/gap decomposition: maximal word matches and
the verbatim non-word gaps between them. -/
inductive BTok where
  | word : Str → BTok
  | gap : Str → BTok
  deriving DecidableEq

/-- The text a token carries. -/
def tokStr : BTok → Str
  | .word w => w
  | .gap g => g

/-- Tokenising state machine: the state holds the token being accumulated
(`true` for a word, `false` for a gap; characters reversed).  Words start at a
start character and extend maximally over word characters; everything else
accumulates into gaps. -/
def tokGo : List Char → Option (Bool × List Char) → List BTok
  | [], none => []
  | [], some (true, acc) => [.word acc.reverse]
  | [], some (false, acc) => [.gap acc.reverse]
  | c :: cs, none =>
    if isBionicWordStart c then tokGo cs (some (true, [c]))
    else tokGo cs (some (false, [c]))
  | c :: cs, some (true, acc) =>
    if isBionicWordChar c then tokGo cs (some (true, c :: acc))
    else .word acc.reverse :: tokGo cs (some (false, [c]))
  | c :: cs, some (false, acc) =>
    if isBionicWordStart c then .gap acc.reverse :: tokGo cs (some (true, [c]))
    else tokGo cs (some (false, c :: acc))

/-- The word/gap decomposition of a string. -/
def tokenizeBionic (s : Str) : List BTok := tokGo s none

/-- Rendering of one token as the claim states it: a gap passes through as
plain text; a word of length at least `minWordLength` becomes a wrapper whose
emphasis span holds exactly the first
`clamp(round(length × fixation), 1, length)` characters, with a plain rest
span present if and only if that focus length is smaller than the word length;
a shorter word passes through as plain unwrapped text. -/
def renderBTok (fixation : ℚ) (m : ℕ) : BTok → HNode
  | .gap g => .text g
  | .word w =>
    if w.length < m then .text w
    else
      let f := focusLength fixation w.length
      .elem (str "span") [(str "class", str "bionic-word")]
        (.elem (str "strong") [(str "class", str "bionic-focus")] [.text (w.take f)] ::
          (if f < w.length then
            [.elem (str "span") [(str "class", str "bionic-rest")] [.text (w.drop f)]]
          else []))

/-- `BIONIC_SKIP_SELECTOR = "pre, code, kbd, samp, a, button, input, textarea"`. -/
def bionicSkipTags : List Str :=
  [str "pre", str "code", str "kbd", str "samp", str "a", str "button",
   str "input", str "textarea"]

/-- The document walk of `applyBionicReading`: transform the text nodes of a
forest in document order, skipping every text node that has an ancestor (its
parent included, via `parent.closest(BIONIC_SKIP_SELECTOR)`) whose tag is in
the skip set.  The flag records whether such an ancestor has been passed. -/
def bionicChildren (fixation : ℚ) (m : ℕ) : Bool → List HNode → List HNode
  | _, [] => []
  | inSkip, .text s :: rest =>
    (if inSkip then [.text s] else transformTextNode fixation m s) ++
      bionicChildren fixation m inSkip rest
  | inSkip, .elem t attrs ch :: rest =>
    .elem t attrs (bionicChildren fixation m (inSkip || bionicSkipTags.contains t) ch) ::
      bionicChildren fixation m inSkip rest
termination_by _b ns => sizeOf ns
decreasing_by all_goals simp_wf <;> omega

/-- `UltraReadConfig` (src/src/types/app.ts): all fields are JavaScript
numbers, embedded as exact rationals. -/
structure UltraReadConfig where
  enabled : Bool
  fixation : ℚ
  minWordLength : ℚ
  focusWeight : ℚ

/-- The fixation actually used: `clamp(config.fixation, 0.2, 0.8)` (both
`applyBionicReading` and `renderBionicWord` compute exactly this). -/
def effectiveFixation (config : UltraReadConfig) : ℚ :=
  clampQ config.fixation (2/10) (8/10)

/-- The minimum word length used by `applyBionicReading`:
`clamp(Math.round(config.minWordLength), 2, 12)`. -/
def effectiveMinWordLength (config : UltraReadConfig) : ℕ :=
  (min 12 (max 2 (jsRound config.minWordLength))).toNat

/-- `applyBionicReading` over the parsed body of the html: a no-op when
disabled, otherwise the skipping document walk with the clamped parameters. -/
def applyBionicReading (html : List HNode) (config : UltraReadConfig) : List HNode :=
  if !config.enabled then html
  else bionicChildren (effectiveFixation config) (effectiveMinWordLength config) false html

/-- Concatenated text content of a forest (`textContent` in document order). -/
def textContentF : List HNode → Str
  | [] => []
  | .text s :: rest => s ++ textContentF rest
  | .elem _ _ ch :: rest => textContentF ch ++ textContentF rest
termination_by ns => sizeOf ns
decreasing_by all_goals simp_wf <;> omega

theorem wordStart_wordChar {c : Char} (h : isBionicWordStart c = true) :
    isBionicWordChar c = true := by
  simp [isBionicWordChar, h]

/-- A whitespace character is never a word character of the bionic pattern. -/
theorem jsSpace_not_wordChar {c : Char} (h : isJsSpace c = true) :
    isBionicWordChar c = false := by
  simp only [isJsSpace, Bool.or_eq_true, decide_eq_true_eq, Bool.and_eq_true] at h
  simp only [or_assoc] at h
  rcases h with rfl|rfl|rfl|rfl|rfl|rfl|rfl|rfl|⟨h1, h2⟩|rfl|rfl|rfl|rfl|rfl|rfl <;>
  first
  | decide
  | (have hZ : ¬ (c ≤ 'Z') := fun hle => absurd (le_trans h1 hle) (by decide)
     have hz : ¬ (c ≤ 'z') := fun hle => absurd (le_trans h1 hle) (by decide)
     have h9 : ¬ (c ≤ '9') := fun hle => absurd (le_trans h1 hle) (by decide)
     have hO : ¬ (c ≤ 'Ö') := fun hle => absurd (le_trans h1 hle) (by decide)
     have ho : ¬ (c ≤ 'ö') := fun hle => absurd (le_trans h1 hle) (by decide)
     have hy : ¬ (c ≤ 'ÿ') := fun hle => absurd (le_trans h1 hle) (by decide)
     have hq : c ≠ '\'' := fun hh => absurd (hh ▸ h1) (by decide)
     have hcu : c ≠ '’' := fun hh => absurd (hh ▸ h2) (by decide)
     have hd : c ≠ '-' := fun hh => absurd (hh ▸ h1) (by decide)
     simp [isBionicWordChar, isBionicWordStart, hZ, hz, h9, hO, ho, hy, hq, hcu, hd])

theorem jsSpace_not_wordStart {c : Char} (h : isJsSpace c = true) :
    isBionicWordStart c = false := by
  have h2 := jsSpace_not_wordChar h
  simp only [isBionicWordChar, Bool.or_eq_false_iff] at h2
  exact h2.1.1.1

/-- A string with empty trim consists of whitespace only. -/
theorem jsTrim_isEmpty_all_space {s : Str} (h : (jsTrim s).isEmpty = true) :
    ∀ c ∈ s, isJsSpace c = true := by
  intro c hc
  have h0 : (s.dropWhile isJsSpace).reverse.dropWhile isJsSpace = [] := by
    simpa [jsTrim, List.isEmpty_iff] using h
  have h1 : ∀ x ∈ (s.dropWhile isJsSpace).reverse, isJsSpace x = true :=
    List.dropWhile_eq_nil_iff.mp h0
  rw [← List.takeWhile_append_dropWhile (p := isJsSpace) (l := s)] at hc
  rcases List.mem_append.mp hc with hm | hm
  · exact List.mem_takeWhile_imp hm
  · exact h1 c (List.mem_reverse.mpr hm)

/-- The first element surviving `dropWhile` fails the predicate. -/
theorem dropWhile_head_false (p : Char → Bool) :
    ∀ (l : List Char) (d : Char) (ds : List Char), l.dropWhile p = d :: ds → p d = false := by
  intro l
  induction l with
  | nil => intro d ds h; simp [List.dropWhile] at h
  | cons x xs ih =>
    intro d ds h
    by_cases hx : p x
    · rw [List.dropWhile_cons_of_pos hx] at h; exact ih d ds h
    · rw [List.dropWhile_cons_of_neg hx] at h
      injection h with h1 _
      subst h1
      simpa using hx

/-- Closing a word run: with a word accumulator, a run of word characters
followed by a non-word boundary emits one maximal word token. -/
theorem tokGo_word_run (u : List Char) :
    ∀ (v acc : List Char),
      (∀ c ∈ u, isBionicWordChar c = true) →
      (∀ d ds, v = d :: ds → isBionicWordChar d = false) →
      tokGo (u ++ v) (some (true, acc)) = .word (acc.reverse ++ u) :: tokGo v none := by
  induction u with
  | nil =>
    intro v acc _ hv
    cases v with
    | nil => simp [tokGo]
    | cons d ds =>
      have hd := hv d ds rfl
      have hds : isBionicWordStart d = false := by
        cases hst : isBionicWordStart d
        · rfl
        · exact absurd (wordStart_wordChar hst) (by simp [hd])
      simp [tokGo, hd, hds]
  | cons x xs ih =>
    intro v acc hu hv
    have hx : isBionicWordChar x = true := hu x (List.mem_cons_self _ _)
    simp only [List.cons_append, tokGo, hx, if_true, List.append_eq]
    rw [ih v (x :: acc) (fun c hc => hu c (List.mem_cons_of_mem _ hc)) hv]
    simp

/-- Closing a gap run: with a gap accumulator, a run of non-start characters
followed by a word start (or the end) emits one gap token. -/
theorem tokGo_gap_run (g : List Char) :
    ∀ (v acc : List Char),
      (∀ c ∈ g, isBionicWordStart c = false) →
      (∀ d ds, v = d :: ds → isBionicWordStart d = true) →
      tokGo (g ++ v) (some (false, acc)) = .gap (acc.reverse ++ g) :: tokGo v none := by
  induction g with
  | nil =>
    intro v acc _ hv
    cases v with
    | nil => simp [tokGo]
    | cons d ds =>
      have hd := hv d ds rfl
      simp [tokGo, hd]
  | cons x xs ih =>
    intro v acc hg hv
    have hx : isBionicWordStart x = false := hg x (List.mem_cons_self _ _)
    simp only [List.cons_append, tokGo, hx, Bool.false_eq_true, if_false, List.append_eq]
    rw [ih v (x :: acc) (fun c hc => hg c (List.mem_cons_of_mem _ hc)) hv]
    simp

/-- The match scanner finds no match in a string with no start character. -/
theorem matchGoF_nil_of_no_start :
    ∀ (fuel off : ℕ) (cs : List Char),
      (∀ c ∈ cs, isBionicWordStart c = false) → matchGoF fuel off cs = [] := by
  intro fuel
  induction fuel with
  | zero => intro off cs _; rfl
  | succ fuel ih =>
    intro off cs h
    cases cs with
    | nil => rfl
    | cons x xs =>
      have hx := h x (List.mem_cons_self _ _)
      simp only [matchGoF, hx, Bool.false_eq_true, if_false]
      exact ih (off + 1) xs (fun c hc => h c (List.mem_cons_of_mem _ hc))

theorem drop_add_eq (s : Str) (a b : ℕ) : s.drop (a + b) = (s.drop a).drop b := by
  rw [List.drop_drop]

theorem drop_length_takeWhile (p : Char → Bool) (l : List Char) :
    l.drop (l.takeWhile p).length = l.dropWhile p := by
  have h := List.drop_left (l.takeWhile p) (l.dropWhile p)
  rwa [List.takeWhile_append_dropWhile] at h

/-- The claim's word rendering coincides with the fragment loop's word node. -/
theorem renderBTok_word_eq (fixation : ℚ) (m : ℕ) (w : Str) :
    renderBTok fixation m (.word w) = renderWordNode fixation m w := by
  by_cases h : w.length < m
  · simp [renderBTok, renderWordNode, h, Nat.not_le.mpr h]
  · simp [renderBTok, renderWordNode, h, Nat.le_of_not_lt h]

/-- Central equivalence: the fragment produced by the match-and-cursor loop of
`transformTextNode` over a suffix of `s` equals the token decomposition of that
suffix rendered token by token.  The first conjunct starts at a cursor aligned
with the suffix; the second carries a pending gap `g` of already-scanned
non-start characters sitting just before the suffix. -/
theorem buildFrag_eq_tokens (fixation : ℚ) (m : ℕ) (s : Str) :
    ∀ fuel : ℕ,
      (∀ (cs : List Char) (off : ℕ), s.drop off = cs → cs.length ≤ fuel →
        buildFrag fixation m s (matchGoF fuel off cs) off =
          (tokGo cs none).map (renderBTok fixation m)) ∧
      (∀ (cs g : List Char) (off : ℕ), s.drop off = cs → cs.length ≤ fuel →
        g ≠ [] → g.length ≤ off → s.drop (off - g.length) = g ++ cs →
        (∀ c ∈ g, isBionicWordStart c = false) →
        buildFrag fixation m s (matchGoF fuel off cs) (off - g.length) =
          (tokGo cs (some (false, g.reverse))).map (renderBTok fixation m)) := by
  intro fuel
  induction fuel with
  | zero =>
    constructor
    · intro cs off hdrop hlen
      have hnil : cs = [] := List.length_eq_zero.mp (Nat.le_zero.mp hlen)
      subst hnil
      have hle : s.length ≤ off := List.drop_eq_nil_iff.mp hdrop
      simp [matchGoF, buildFrag, tokGo, Nat.not_lt.mpr hle]
    · intro cs g off hdrop hlen hg hgo hdrop2 _
      have hnil : cs = [] := List.length_eq_zero.mp (Nat.le_zero.mp hlen)
      subst hnil
      have hlt : off - g.length < s.length := by
        by_contra hh
        rw [List.drop_eq_nil_iff.mpr (Nat.le_of_not_lt hh)] at hdrop2
        exact hg (by simpa using hdrop2.symm)
      rw [List.append_nil] at hdrop2
      simp [matchGoF, buildFrag, tokGo, hlt, hdrop2, renderBTok]
  | succ fuel ih =>
    obtain ⟨ihP, ihQ⟩ := ih
    have wordStep : ∀ (c : Char) (cs' : List Char) (off : ℕ),
        isBionicWordStart c = true → s.drop off = c :: cs' → (c :: cs').length ≤ fuel + 1 →
        renderWordNode fixation m (c :: cs'.takeWhile isBionicWordChar) ::
            buildFrag fixation m s
              (matchGoF fuel (off + (c :: cs'.takeWhile isBionicWordChar).length)
                (cs'.dropWhile isBionicWordChar))
              (off + (c :: cs'.takeWhile isBionicWordChar).length) =
          (tokGo (c :: cs') none).map (renderBTok fixation m) := by
      intro c cs' off hc hdrop hlen
      have hsplit : cs'.takeWhile isBionicWordChar ++ cs'.dropWhile isBionicWordChar = cs' :=
        List.takeWhile_append_dropWhile isBionicWordChar cs'
      have hw : s.drop (off + (c :: cs'.takeWhile isBionicWordChar).length) =
          cs'.dropWhile isBionicWordChar := by
        rw [drop_add_eq, hdrop]
        simp only [List.length_cons, List.drop_succ_cons]
        exact drop_length_takeWhile isBionicWordChar cs'
      have hrl : (cs'.dropWhile isBionicWordChar).length ≤ fuel := by
        have h1 : (cs'.dropWhile isBionicWordChar).length ≤ cs'.length :=
          (List.dropWhile_sublist isBionicWordChar).length_le
        have h2 : cs'.length ≤ fuel := by simpa using hlen
        omega
      rw [ihP _ _ hw hrl]
      have htok : tokGo (c :: cs') none =
          .word (c :: cs'.takeWhile isBionicWordChar) ::
            tokGo (cs'.dropWhile isBionicWordChar) none := by
        rw [show tokGo (c :: cs') none = tokGo cs' (some (true, [c])) from by
          simp [tokGo, hc]]
        conv_lhs => rw [← hsplit]
        rw [tokGo_word_run _ _ [c] (fun x hx => List.mem_takeWhile_imp hx)
          (fun d ds hd => dropWhile_head_false _ cs' d ds hd)]
        simp
      rw [htok]
      simp [renderBTok_word_eq]
    constructor
    · -- cursor aligned with the suffix
      intro cs off hdrop hlen
      cases cs with
      | nil =>
        have hle : s.length ≤ off := List.drop_eq_nil_iff.mp hdrop
        simp [matchGoF, buildFrag, tokGo, Nat.not_lt.mpr hle]
      | cons c cs' =>
        by_cases hc : isBionicWordStart c
        · rw [show matchGoF (fuel + 1) off (c :: cs') =
              (off, c :: cs'.takeWhile isBionicWordChar) ::
                matchGoF fuel (off + (c :: cs'.takeWhile isBionicWordChar).length)
                  (cs'.dropWhile isBionicWordChar) from by simp [matchGoF, hc]]
          rw [show buildFrag fixation m s
              ((off, c :: cs'.takeWhile isBionicWordChar) ::
                matchGoF fuel (off + (c :: cs'.takeWhile isBionicWordChar).length)
                  (cs'.dropWhile isBionicWordChar)) off =
              renderWordNode fixation m (c :: cs'.takeWhile isBionicWordChar) ::
                buildFrag fixation m s
                  (matchGoF fuel (off + (c :: cs'.takeWhile isBionicWordChar).length)
                    (cs'.dropWhile isBionicWordChar))
                  (off + (c :: cs'.takeWhile isBionicWordChar).length) from by
            simp [buildFrag]]
          exact wordStep c cs' off hc hdrop hlen
        · have hdrop' : s.drop (off + 1) = cs' := by
            rw [← List.tail_drop, hdrop]
            rfl
          have hQ := ihQ cs' [c] (off + 1) hdrop' (by simpa using hlen)
            (by simp) (Nat.succ_le_succ (Nat.zero_le off))
            (by simpa using hdrop) (by simpa using hc)
          rw [show matchGoF (fuel + 1) off (c :: cs') = matchGoF fuel (off + 1) cs' from by
            simp [matchGoF, hc]]
          rw [show tokGo (c :: cs') none = tokGo cs' (some (false, [c])) from by
            simp [tokGo, hc]]
          simpa using hQ
    · -- cursor behind a pending gap
      intro cs g off hdrop hlen hg hgo hdrop2 hns
      cases cs with
      | nil =>
        have hlt : off - g.length < s.length := by
          by_contra hh
          rw [List.drop_eq_nil_iff.mpr (Nat.le_of_not_lt hh)] at hdrop2
          exact hg (by simpa using hdrop2.symm)
        rw [List.append_nil] at hdrop2
        simp [matchGoF, buildFrag, tokGo, hlt, hdrop2, renderBTok]
      | cons c cs' =>
        by_cases hc : isBionicWordStart c
        · -- the pending gap closes, then a word starts
          rw [show matchGoF (fuel + 1) off (c :: cs') =
              (off, c :: cs'.takeWhile isBionicWordChar) ::
                matchGoF fuel (off + (c :: cs'.takeWhile isBionicWordChar).length)
                  (cs'.dropWhile isBionicWordChar) from by simp [matchGoF, hc]]
          have hgl : 0 < g.length := List.length_pos.mpr hg
          rw [show buildFrag fixation m s
              ((off, c :: cs'.takeWhile isBionicWordChar) ::
                matchGoF fuel (off + (c :: cs'.takeWhile isBionicWordChar).length)
                  (cs'.dropWhile isBionicWordChar)) (off - g.length) =
              .text ((s.drop (off - g.length)).take (off - (off - g.length))) ::
                renderWordNode fixation m (c :: cs'.takeWhile isBionicWordChar) ::
                  buildFrag fixation m s
                    (matchGoF fuel (off + (c :: cs'.takeWhile isBionicWordChar).length)
                      (cs'.dropWhile isBionicWordChar))
                    (off + (c :: cs'.takeWhile isBionicWordChar).length) from by
            have : off - g.length < off := by omega
            simp [buildFrag, this]]
          have hslice : (s.drop (off - g.length)).take (off - (off - g.length)) = g := by
            rw [hdrop2, show off - (off - g.length) = g.length from by omega]
            exact List.take_left g (c :: cs')
          rw [hslice]
          rw [show tokGo (c :: cs') (some (false, g.reverse)) =
              .gap g :: tokGo cs' (some (true, [c])) from by simp [tokGo, hc]]
          rw [show tokGo cs' (some (true, [c])) = tokGo (c :: cs') none from by
            simp [tokGo, hc]]
          rw [List.map_cons]
          refine congrArg₂ _ rfl ?_
          exact wordStep c cs' off hc hdrop hlen
        · -- the pending gap grows by one character
          have hdrop' : s.drop (off + 1) = cs' := by
            rw [← List.tail_drop, hdrop]
            rfl
          have hQ := ihQ cs' (g ++ [c]) (off + 1) hdrop' (by simpa using hlen)
            (by simp)
            (by simp only [List.length_append, List.length_cons, List.length_nil]; omega)
            ?hd2 ?hns2
          case hd2 =>
            rw [show off + 1 - (g ++ [c]).length = off - g.length from by
              simp only [List.length_append, List.length_cons, List.length_nil]; omega]
            rw [hdrop2]
            simp
          case hns2 =>
            intro x hx
            rcases List.mem_append.mp hx with hx1 | hx1
            · exact hns x hx1
            · rw [List.mem_singleton.mp hx1]
              simpa using hc
          rw [show matchGoF (fuel + 1) off (c :: cs') = matchGoF fuel (off + 1) cs' from by
            simp [matchGoF, hc]]
          rw [show tokGo (c :: cs') (some (false, g.reverse)) =
              tokGo cs' (some (false, c :: g.reverse)) from by simp [tokGo, hc]]
          rw [show (off : ℕ) - g.length = off + 1 - (g ++ [c]).length from by
            simp only [List.length_append, List.length_cons, List.length_nil]; omega]
          rw [show (c :: g.reverse : List Char) = (g ++ [c]).reverse from by simp]
          exact hQ

/-- `transformTextNode` on a non-empty string is exactly the token
decomposition rendered token by token (every branch, including the
whitespace-only and no-match early returns). -/
theorem transformTextNode_eq_tokens (fixation : ℚ) (m : ℕ) (s : Str) (hs : s ≠ []) :
    transformTextNode fixation m s = (tokenizeBionic s).map (renderBTok fixation m) := by
  have hP := (buildFrag_eq_tokens fixation m s s.length).1 s 0 rfl le_rfl
  have hpos : 0 < s.length := List.length_pos.mpr hs
  by_cases h1 : (jsTrim s).isEmpty
  · have hws := jsTrim_isEmpty_all_space h1
    have hm : wordMatches s = [] :=
      matchGoF_nil_of_no_start s.length 0 s (fun c hc => jsSpace_not_wordStart (hws c hc))
    rw [show transformTextNode fixation m s = [.text s] from by
      simp [transformTextNode, h1]]
    rw [show (tokenizeBionic s).map (renderBTok fixation m) =
        buildFrag fixation m s (matchGoF s.length 0 s) 0 from hP.symm]
    rw [show matchGoF s.length 0 s = [] from hm]
    simp [buildFrag, hpos]
  · by_cases h2 : (wordMatches s).isEmpty
    · rw [show transformTextNode fixation m s = [.text s] from by
        simp [transformTextNode, h1, h2]]
      rw [show (tokenizeBionic s).map (renderBTok fixation m) =
          buildFrag fixation m s (matchGoF s.length 0 s) 0 from hP.symm]
      rw [show matchGoF s.length 0 s = [] from by
        simpa [wordMatches, List.isEmpty_iff] using h2]
      simp [buildFrag, hpos]
    · rw [show transformTextNode fixation m s =
          buildFrag fixation m s (wordMatches s) 0 from by
        simp [transformTextNode, h1, h2]]
      exact hP

/-- The focus prefix never exceeds the word length. -/
theorem focusLength_le (fixation : ℚ) (len : ℕ) : focusLength fixation len ≤ len := by
  unfold focusLength
  have h : min (len : ℤ) (max 1 (jsRound (len * fixation))) ≤ (len : ℤ) := min_le_left _ _
  omega

/-- Rendering one token preserves its text. -/
theorem renderBTok_content (fixation : ℚ) (m : ℕ) (t : BTok) :
    textContentF [renderBTok fixation m t] = tokStr t := by
  cases t with
  | gap g => simp [renderBTok, textContentF, tokStr]
  | word w =>
    by_cases h : w.length < m
    · simp [renderBTok, h, textContentF, tokStr]
    · by_cases h2 : focusLength fixation w.length < w.length
      · simp [renderBTok, h, h2, textContentF, tokStr]
      · have hf : focusLength fixation w.length = w.length :=
          le_antisymm (focusLength_le fixation w.length) (Nat.le_of_not_lt h2)
        simp [renderBTok, h, h2, textContentF, tokStr, hf]

theorem textContentF_append (l₁ l₂ : List HNode) :
    textContentF (l₁ ++ l₂) = textContentF l₁ ++ textContentF l₂ := by
  induction l₁ with
  | nil => simp [textContentF]
  | cons n rest ih =>
    cases n with
    | text t => simp [textContentF, ih]
    | elem tg a ch => simp [textContentF, ih]

/-- Rendering a token list preserves the concatenated text. -/
theorem map_renderBTok_content (fixation : ℚ) (m : ℕ) :
    ∀ toks : List BTok,
      textContentF (toks.map (renderBTok fixation m)) = (toks.map tokStr).flatten := by
  intro toks
  induction toks with
  | nil => simp [textContentF]
  | cons t ts ih =>
    rw [List.map_cons, show renderBTok fixation m t :: ts.map (renderBTok fixation m) =
      [renderBTok fixation m t] ++ ts.map (renderBTok fixation m) from rfl]
    rw [textContentF_append, renderBTok_content, ih]
    simp

/-- The token decomposition covers the string exactly. -/
theorem tokGo_content :
    ∀ (cs : List Char) (st : Option (Bool × List Char)),
      ((tokGo cs st).map tokStr).flatten =
        (match st with | none => [] | some (_, acc) => acc.reverse) ++ cs := by
  intro cs
  induction cs with
  | nil =>
    intro st
    rcases st with _ | ⟨b, acc⟩
    · simp [tokGo]
    · cases b <;> simp [tokGo, tokStr]
  | cons c cs ih =>
    intro st
    rcases st with _ | ⟨b, acc⟩
    · by_cases hc : isBionicWordStart c
      · simpa [tokGo, hc] using ih (some (true, [c]))
      · simpa [tokGo, hc] using ih (some (false, [c]))
    · cases b
      · by_cases hc : isBionicWordStart c
        · have := ih (some (true, [c]))
          simp [tokGo, hc, tokStr, this]
        · have := ih (some (false, c :: acc))
          simp [tokGo, hc, tokStr, this]
      · by_cases hc : isBionicWordChar c
        · have := ih (some (true, c :: acc))
          simp [tokGo, hc, tokStr, this]
        · have := ih (some (false, [c]))
          simp [tokGo, hc, tokStr, this]

/-- `transformTextNode` preserves the text content of the node it replaces. -/
theorem transformTextNode_content (fixation : ℚ) (m : ℕ) (s : Str) :
    textContentF (transformTextNode fixation m s) = s := by
  by_cases hs : s = []
  · subst hs; simp [transformTextNode, jsTrim, textContentF]
  · rw [transformTextNode_eq_tokens fixation m s hs, map_renderBTok_content]
    simpa [tokenizeBionic] using tokGo_content s none

/-- Inside a skipped subtree the walk changes nothing: every text node under a
skip-set ancestor is left unmodified, at any depth. -/
theorem bionicChildren_skip_id (fixation : ℚ) (m : ℕ) :
    ∀ ns : List HNode, bionicChildren fixation m true ns = ns := by
  have main : ∀ (k : ℕ) (ns : List HNode), sizeOf ns ≤ k →
      bionicChildren fixation m true ns = ns := by
    intro k
    induction k with
    | zero =>
      intro ns h
      cases ns with
      | nil => simp [bionicChildren]
      | cons n rest => simp at h
    | succ k ih =>
      intro ns h
      match ns with
      | [] => simp [bionicChildren]
      | .text s :: rest =>
        have hr : sizeOf rest ≤ k := by simp at h; omega
        simp [bionicChildren, ih rest hr]
      | .elem t a ch :: rest =>
        have hr : sizeOf rest ≤ k := by simp at h; omega
        have hch : sizeOf ch ≤ k := by simp at h; omega
        simp [bionicChildren, ih rest hr, ih ch hch]
  intro ns
  exact main (sizeOf ns) ns le_rfl

/-- The walk preserves the concatenated text content of the forest. -/
theorem bionicChildren_content (fixation : ℚ) (m : ℕ) :
    ∀ (b : Bool) (ns : List HNode),
      textContentF (bionicChildren fixation m b ns) = textContentF ns := by
  have main : ∀ (k : ℕ) (ns : List HNode), sizeOf ns ≤ k → ∀ b : Bool,
      textContentF (bionicChildren fixation m b ns) = textContentF ns := by
    intro k
    induction k with
    | zero =>
      intro ns h
      cases ns with
      | nil => intro b; simp [bionicChildren]
      | cons n rest => simp at h
    | succ k ih =>
      intro ns h b
      match ns with
      | [] => simp [bionicChildren]
      | .text s :: rest =>
        have hr : sizeOf rest ≤ k := by simp at h; omega
        cases b with
        | true => simp [bionicChildren, textContentF, ih rest hr]
        | false =>
          simp only [bionicChildren, Bool.false_eq_true, if_false, textContentF_append,
            ih rest hr true |>.symm]
          rw [transformTextNode_content]
          simp [textContentF, ih rest hr]
      | .elem t a ch :: rest =>
        have hr : sizeOf rest ≤ k := by simp at h; omega
        have hch : sizeOf ch ≤ k := by simp at h; omega
        simp [bionicChildren, textContentF, ih rest hr, ih ch hch]
  intro b ns
  exact main (sizeOf ns) ns le_rfl b

/-- C10: the bionic transform never drops, duplicates or reorders a character.
The source parses the html into a DOM, walks and splices text nodes, and
re-serialises; over the embedded tree, the concatenated text content of the
output equals that of the input for every forest and every configuration
(including the disabled pass-through). -/
theorem C10_applyBionicReading_preserves_textContent
    (html : List HNode) (config : UltraReadConfig) :
    textContentF (applyBionicReading html config) = textContentF html := by
  unfold applyBionicReading
  by_cases h : config.enabled
  · simp [h, bionicChildren_content]
  · simp [h]

/-- C3: the enabled transform never touches an element of the exclusion set
`{pre, code, kbd, samp, a, button, input, textarea}`: the whole subtree under
such an element is returned unchanged whatever the ambient skip flag, and the
walk with the skip flag set is the identity — so every text node with a
skip-set ancestor, at any nesting depth, is left unmodified. -/
theorem C3_bionic_skip_excluded (fixation : ℚ) (m : ℕ) (b : Bool) (t : Str)
    (attrs : List (Str × Str)) (ch : List HNode) (ht : t ∈ bionicSkipTags) :
    bionicChildren fixation m b [HNode.elem t attrs ch] = [HNode.elem t attrs ch] ∧
      bionicChildren fixation m true ch = ch := by
  refine ⟨?_, bionicChildren_skip_id fixation m ch⟩
  simp [bionicChildren, ht, bionicChildren_skip_id]

theorem C3_witness :
    str "pre" ∈ bionicSkipTags ∧
      bionicChildren (1/2) 4 false
          [HNode.elem (str "pre") [] [HNode.text (str "const value = 42;")]] =
        [HNode.elem (str "pre") [] [HNode.text (str "const value = 42;")]] :=
  ⟨by decide,
    (C3_bionic_skip_excluded (1/2) 4 false (str "pre") []
      [HNode.text (str "const value = 42;")] (by decide)).1⟩

/-- C4: on every non-empty text content, the match-and-cursor loop of
`transformTextNode` produces exactly the claimed decomposition: maximal word
matches of length ≥ `minWordLength` become a wrapper whose emphasis span holds
the first `clamp(round(length × fixation), 1, length)` characters with a rest
span present iff the focus is shorter than the word; shorter words and the
gaps between matches pass through as plain text (`renderBTok` spells out the
claimed shape); and the split point depends on the word length only. -/
theorem C4_transformTextNode_word_split (fixation : ℚ) (m : ℕ) (s : Str)
    (hs : s ≠ []) :
    transformTextNode fixation m s = (tokenizeBionic s).map (renderBTok fixation m) ∧
      ∀ w₁ w₂ : Str, w₁.length = w₂.length →
        focusLength fixation w₁.length = focusLength fixation w₂.length :=
  ⟨transformTextNode_eq_tokens fixation m s hs, fun _ _ h => by rw [h]⟩

theorem C4_witness :
    str "Bionic reading improves focus." ≠ [] ∧
      transformTextNode (1/2) 4 (str "Bionic reading improves focus.") =
        (tokenizeBionic (str "Bionic reading improves focus.")).map (renderBTok (1/2) 4) :=
  ⟨by decide,
    (C4_transformTextNode_word_split (1/2) 4 (str "Bionic reading improves focus.")
      (by decide)).1⟩

/-! ## `renderBionicWord` (single-word renderer) -/

/-- Modelled from the spec: `DOMPurify.sanitize` applied to one word — the
spec says `renderBionicWord` "sanitizes a single word for safe direct HTML
injection".  DOMPurify is an external collaborator whose code is not in the
repository; on plain words containing no markup sanitisation returns the word
unchanged, and the claims below exercise only such words, so the step is
modelled as the identity. -/
def sanitizeWordModel (w : Str) : Str := w

/-- `renderBionicWord` as the source has it: fixation is clamped, but the raw
`config.minWordLength` is compared against the word length unclamped. -/
def renderBionicWord (word : Str) (config : UltraReadConfig) : Str :=
  let safeWord := sanitizeWordModel word
  if safeWord.isEmpty then str "&nbsp;"
  else if (safeWord.length : ℚ) < config.minWordLength then safeWord
  else
    let f := focusLength (effectiveFixation config) safeWord.length
    let focus := safeWord.take f
    let rest := safeWord.drop f
    if rest.isEmpty then
      str "<span class=\"bionic-word\"><strong class=\"bionic-focus\">" ++ focus ++
        str "</strong></span>"
    else
      str "<span class=\"bionic-word\"><strong class=\"bionic-focus\">" ++ focus ++
        str "</strong><span class=\"bionic-rest\">" ++ rest ++ str "</span></span>"

/-- The claim's version of `renderBionicWord`: identical except that
`minWordLength` is clamped into `[2, 12]` before the length comparison. -/
def renderBionicWordClaimed (word : Str) (config : UltraReadConfig) : Str :=
  let safeWord := sanitizeWordModel word
  if safeWord.isEmpty then str "&nbsp;"
  else if safeWord.length < effectiveMinWordLength config then safeWord
  else
    let f := focusLength (effectiveFixation config) safeWord.length
    let focus := safeWord.take f
    let rest := safeWord.drop f
    if rest.isEmpty then
      str "<span class=\"bionic-word\"><strong class=\"bionic-focus\">" ++ focus ++
        str "</strong></span>"
    else
      str "<span class=\"bionic-word\"><strong class=\"bionic-focus\">" ++ focus ++
        str "</strong><span class=\"bionic-rest\">" ++ rest ++ str "</span></span>"

/-- C9 counterexample: `renderBionicWord` does not clamp `minWordLength`.
With `minWordLength = 100` a 13-character word is returned as plain text,
whereas with the claimed clamping to `[2, 12]` it would be wrapped (the two
outputs differ already in their first character). -/
theorem C9_counterexample_renderBionicWord_unclamped :
    renderBionicWord (str "abcdefghijklm")
        { enabled := true, fixation := 1/2, minWordLength := 100, focusWeight := 760 } ≠
      renderBionicWordClaimed (str "abcdefghijklm")
        { enabled := true, fixation := 1/2, minWordLength := 100, focusWeight := 760 } := by
  have hlen : (sanitizeWordModel (str "abcdefghijklm")).length = 13 := rfl
  have h1 : renderBionicWord (str "abcdefghijklm")
      { enabled := true, fixation := 1/2, minWordLength := 100, focusWeight := 760 } =
      str "abcdefghijklm" := by
    simp only [renderBionicWord, hlen]
    rw [if_neg (by decide), if_pos (by norm_num)]
    rfl
  have hm : effectiveMinWordLength
      { enabled := true, fixation := 1/2, minWordLength := 100, focusWeight := 760 } = 12 := by
    unfold effectiveMinWordLength jsRound
    have hfl : ⌊(100 : ℚ) + 1/2⌋ = 100 := by
      rw [Int.floor_eq_iff]
      norm_num
    simp only [hfl]
    omega
  have h2 : (renderBionicWordClaimed (str "abcdefghijklm")
      { enabled := true, fixation := 1/2, minWordLength := 100, focusWeight := 760 }).head? =
      some '<' := by
    simp only [renderBionicWordClaimed, hlen, hm]
    rw [if_neg (by decide), if_neg (by norm_num)]
    split <;> rfl
  intro heq
  rw [h1] at heq
  rw [← heq] at h2
  exact absurd h2 (by decide)

/-- C9 (amended): `applyBionicReading` clamps both parameters before use —
fixation into `[0.2, 0.8]` and `minWordLength` into `[2, 12]` — and the
enabled transform runs with exactly those clamped values; `renderBionicWord`
clamps fixation the same way but compares against the raw, unclamped
`minWordLength` (deliberately, per spec §4.6, so a caller can force an
effectively infinite threshold). -/
theorem C9_applyBionicReading_clamps (config : UltraReadConfig) (html : List HNode) :
    (2/10 : ℚ) ≤ effectiveFixation config ∧ effectiveFixation config ≤ 8/10 ∧
      2 ≤ effectiveMinWordLength config ∧ effectiveMinWordLength config ≤ 12 ∧
      (config.enabled = true → applyBionicReading html config =
        bionicChildren (effectiveFixation config) (effectiveMinWordLength config) false html) := by
  refine ⟨?_, ?_, ?_, ?_, ?_⟩
  · exact le_min (by norm_num) (le_max_left _ _)
  · exact min_le_left _ _
  · have h : (2 : ℤ) ≤ min 12 (max 2 (jsRound config.minWordLength)) :=
      le_min (by norm_num) (le_max_left _ _)
    unfold effectiveMinWordLength
    omega
  · have h : min 12 (max 2 (jsRound config.minWordLength)) ≤ (12 : ℤ) := min_le_left _ _
    unfold effectiveMinWordLength
    omega
  · intro h
    simp [applyBionicReading, h]

theorem C9_witness :
    applyBionicReading [HNode.text (str "hi")]
        { enabled := true, fixation := 9, minWordLength := 99, focusWeight := 1 } =
      bionicChildren
        (effectiveFixation { enabled := true, fixation := 9, minWordLength := 99, focusWeight := 1 })
        (effectiveMinWordLength { enabled := true, fixation := 9, minWordLength := 99, focusWeight := 1 })
        false [HNode.text (str "hi")] :=
  (C9_applyBionicReading_clamps _ _).2.2.2.2 rfl

/-! ## Source-line → block-index mapping (`getBlockIndexForLine`) and the
block structure of the rendered document.  The GFM parser (`marked`) is an
external collaborator whose code is not in the repository; the block structure
it induces is modelled from the spec below. -/

/-- The blank-line test `lines[i].trim().length === 0`. -/
def isBlankLine (l : Str) : Bool := (jsTrim l).length = 0

/-- One iteration of the scan loop of `getBlockIndexForLine`: a non-blank line
outside a block starts a new block; a blank line closes the current block. -/
def blockScanStep (st : ℤ × Bool) (l : Str) : ℤ × Bool :=
  let st1 := if !isBlankLine l && !st.2 then (st.1 + 1, true) else st
  if isBlankLine l then (st1.1, false) else st1

/-- `getBlockIndexForLine`: clamp the 1-based line number into the document,
scan the lines up to it counting starts of contiguous non-blank runs, floor
the result at 0. -/
def getBlockIndexForLine (markdown : Str) (lineNumber : ℕ) : ℤ :=
  if lineNumber ≤ 1 then 0
  else
    max (((splitLinesRN markdown).take
        (min (lineNumber - 1) ((splitLinesRN markdown).length - 1) + 1)).foldl
          blockScanStep (-1, false)).1 0

/-- Number of maximal non-blank runs beginning in a line list, given whether a
run is already open on entry. -/
def countRuns (inBlock : Bool) : List Str → ℕ
  | [] => 0
  | l :: ls =>
    if isBlankLine l then countRuns false ls
    else (if inBlock then 0 else 1) + countRuns true ls

/-- Modelled from the spec: a fenced-code delimiter line of the GFM parser
contract (the spec's parser contract includes "fenced code with syntax
highlighting"); a line whose trimmed text starts with three backticks. -/
def isFenceLine (l : Str) : Bool := (jsTrim l).take 3 = str "```"

/-- Proof device for the heuristic side: the blank-line-separated maximal
runs of non-blank lines of a line list (with fenced spans kept whole when the
fence flag is used), as lists of 0-based line indices.  The run count is the
quantity `getBlockIndexForLine` computes; this decomposition is not the
rendered block structure — `modelBlocks` below models that, and the two are
compared only on the restricted document class of `simpleDoc`.  `cur`
accumulates the current run's line indices in reverse; `i` is the absolute
index of the next line. -/
def runBlocks (i : ℕ) (cur : Option (List ℕ)) (inFence : Bool) : List Str → List (List ℕ)
  | [] =>
    match cur with
    | none => []
    | some b => [b.reverse]
  | l :: ls =>
    if inFence then
      if isFenceLine l then (i :: cur.getD []).reverse :: runBlocks (i + 1) none false ls
      else runBlocks (i + 1) (some (i :: cur.getD [])) true ls
    else if isFenceLine l then
      match cur with
      | none => runBlocks (i + 1) (some [i]) true ls
      | some b => b.reverse :: runBlocks (i + 1) (some [i]) true ls
    else if isBlankLine l then
      match cur with
      | none => runBlocks (i + 1) none false ls
      | some b => b.reverse :: runBlocks (i + 1) none false ls
    else
      runBlocks (i + 1) (some (i :: cur.getD [])) false ls

theorem foldl_blockScan (ls : List Str) :
    ∀ (bi : ℤ) (inB : Bool),
      (ls.foldl blockScanStep (bi, inB)).1 = bi + countRuns inB ls := by
  induction ls with
  | nil => intro bi inB; simp [countRuns]
  | cons l ls ih =>
    intro bi inB
    by_cases hb : isBlankLine l
    · have hstep : blockScanStep (bi, inB) l = (bi, false) := by
        simp [blockScanStep, hb]
      simp only [List.foldl_cons, hstep, ih]
      simp [countRuns, hb]
    · cases inB with
      | true =>
        have hstep : blockScanStep (bi, true) l = (bi, true) := by
          simp [blockScanStep, hb]
        simp only [List.foldl_cons, hstep, ih]
        simp [countRuns, hb]
      | false =>
        have hstep : blockScanStep (bi, false) l = (bi + 1, true) := by
          simp [blockScanStep, hb]
        simp only [List.foldl_cons, hstep, ih]
        simp [countRuns, hb]
        omega

/-- Membership in the run decomposition of a fence-free line suffix
determines the run count up to that line.  `cur = some b` means a run is open
whose already-collected indices are `b`; its members land in run 0. -/
theorem runBlocks_mem (ls : List Str) :
    ∀ (i : ℕ) (cur : Option (List ℕ)) (k j : ℕ),
      (∀ l ∈ ls, isFenceLine l = false) →
      j ∈ (runBlocks i cur false ls).getD k [] →
      (∃ b, cur = some b ∧ k = 0 ∧ j ∈ b) ∨
        (i ≤ j ∧ j - i < ls.length ∧
          countRuns cur.isSome (ls.take (j - i + 1)) =
            k + (if cur.isSome then 0 else 1)) := by
  induction ls with
  | nil =>
    intro i cur k j _ hj
    cases cur with
    | none => simp [runBlocks] at hj
    | some b =>
      left
      cases k with
      | zero =>
        refine ⟨b, rfl, rfl, ?_⟩
        simpa [runBlocks] using hj
      | succ k => simp [runBlocks] at hj
  | cons l ls ih =>
    intro i cur k j hnf hj
    have hlf : isFenceLine l = false := hnf l (List.mem_cons_self _ _)
    have hnf' : ∀ x ∈ ls, isFenceLine x = false := fun x hx => hnf x (List.mem_cons_of_mem _ hx)
    by_cases hb : isBlankLine l
    · cases cur with
      | none =>
        rw [show runBlocks i none false (l :: ls) = runBlocks (i + 1) none false ls from by
          simp [runBlocks, hlf, hb]] at hj
        rcases ih (i + 1) none k j hnf' hj with ⟨b2, hb2, _, _⟩ | ⟨h1, h2, h3⟩
        · cases hb2
        · right
          refine ⟨by omega, by simp only [List.length_cons]; omega, ?_⟩
          rw [show j - i + 1 = (j - (i + 1) + 1) + 1 from by omega, List.take_succ_cons]
          simp only [countRuns, hb, if_true]
          simpa using h3
      | some b =>
        rw [show runBlocks i (some b) false (l :: ls) =
            b.reverse :: runBlocks (i + 1) none false ls from by
          simp [runBlocks, hlf, hb]] at hj
        cases k with
        | zero =>
          left
          exact ⟨b, rfl, rfl, by simpa using hj⟩
        | succ k =>
          rw [show (b.reverse :: runBlocks (i + 1) none false ls).getD (k + 1) [] =
              (runBlocks (i + 1) none false ls).getD k [] from rfl] at hj
          rcases ih (i + 1) none k j hnf' hj with ⟨b2, hb2, _, _⟩ | ⟨h1, h2, h3⟩
          · cases hb2
          · right
            refine ⟨by omega, by simp only [List.length_cons]; omega, ?_⟩
            rw [show j - i + 1 = (j - (i + 1) + 1) + 1 from by omega, List.take_succ_cons]
            simp only [countRuns, hb, if_true, Option.isSome_some]
            simp only [Option.isSome_none] at h3 ⊢
            rw [h3]
            simp
    · rw [show runBlocks i cur false (l :: ls) =
          runBlocks (i + 1) (some (i :: cur.getD [])) false ls from by
        cases cur <;> simp [runBlocks, hlf, hb]] at hj
      rcases ih (i + 1) (some (i :: cur.getD [])) k j hnf' hj with
        ⟨b2, hb2, hk0, hjb⟩ | ⟨h1, h2, h3⟩
      · injection hb2 with hb2'
        subst hb2'
        rcases List.mem_cons.mp hjb with rfl | hjb2
        · right
          subst hk0
          refine ⟨le_rfl, by simp only [List.length_cons]; omega, ?_⟩
          rw [show j - j + 1 = 1 from by omega]
          rw [show (l :: ls).take 1 = [l] from by simp]
          cases cur <;> simp [countRuns, hb]
        · left
          cases cur with
          | none => simp at hjb2
          | some b => exact ⟨b, rfl, hk0, hjb2⟩
      · right
        refine ⟨by omega, by simp only [List.length_cons]; omega, ?_⟩
        rw [show j - i + 1 = (j - (i + 1) + 1) + 1 from by omega, List.take_succ_cons]
        have h3' : countRuns true (ls.take (j - (i + 1) + 1)) = k := by simpa using h3
        simp only [countRuns, hb, Bool.false_eq_true, if_false, h3']
        cases cur <;> first
        | (simp; omega)
        | simp

/-- Evaluating the text heuristic from a run count up to line `j`. -/
theorem getBlockIndexForLine_of_runs (md : Str) (j k : ℕ)
    (hj : j < (splitLinesRN md).length)
    (hcr : countRuns false ((splitLinesRN md).take (j + 1)) = k + 1) :
    getBlockIndexForLine md (j + 1) = (k : ℤ) := by
  by_cases h0 : j = 0
  · subst h0
    have hle : countRuns false ((splitLinesRN md).take 1) ≤ 1 := by
      cases hsp : (splitLinesRN md).take 1 with
      | nil => simp [countRuns]
      | cons a t =>
        have ht : t = [] := by
          have hl := congrArg List.length hsp
          simp only [List.length_take, List.length_cons] at hl
          have : t.length = 0 := by omega
          exact List.length_eq_zero.mp this
        subst ht
        simp only [countRuns]
        split <;> simp
    have hcr' : countRuns false ((splitLinesRN md).take 1) = k + 1 := by simpa using hcr
    have hk : k = 0 := by omega
    subst hk
    simp [getBlockIndexForLine]
  · have h2 : ¬ (j + 1 ≤ 1) := by omega
    have hmin : min (j + 1 - 1) ((splitLinesRN md).length - 1) = j := by omega
    rw [getBlockIndexForLine, if_neg h2, hmin, foldl_blockScan, hcr]
    omega

/-- A GFM blank line: nothing but spaces and tabs. -/
def gfmBlank (l : Str) : Bool := l.all (fun c => c = ' ' || c = '\t')

/-- Modelled from the spec: an ATX heading line of the GFM parser contract —
up to three leading spaces, one to six number signs, then a space, a tab or
the end of the line. -/
def atxHeading (l : Str) : Bool :=
  (l.takeWhile (fun c => c = ' ')).length ≤ 3 &&
  1 ≤ ((l.dropWhile (fun c => c = ' ')).takeWhile (fun c => c = '#')).length &&
  ((l.dropWhile (fun c => c = ' ')).takeWhile (fun c => c = '#')).length ≤ 6 &&
  (match (l.dropWhile (fun c => c = ' ')).drop
      ((l.dropWhile (fun c => c = ' ')).takeWhile (fun c => c = '#')).length with
   | [] => true
   | c :: _ => c = ' ' || c = '\t')

/-- A first significant character that cannot open any GFM block construct
other than a paragraph: not whitespace and not a heading marker, blockquote
marker, list marker or digit, setext underline or thematic-break character,
fence character (backtick, written as its code point, or tilde), raw-HTML
opener, link-reference opener, or table-row character. -/
def plainStartChar (c : Char) : Bool :=
  !isJsSpace c &&
  !(['#', '>', '-', '+', '*', '=', '~', '_', '<', '[', '|', ':'].contains c) &&
  !(c = Char.ofNat 96) && !('0' ≤ c && c ≤ '9')

/-- A plain paragraph line of the restricted grammar: fewer than four leading
spaces and a plain first significant character, so under the GFM parser
contract the line can only start or continue a paragraph. -/
def plainLine (l : Str) : Bool :=
  (l.takeWhile (fun c => c = ' ')).length ≤ 3 &&
  (match l.dropWhile (fun c => c = ' ') with
   | [] => false
   | c :: _ => plainStartChar c)

/-- Modelled from the spec: the source-line block structure the GFM parser
contract induces on documents built from ATX headings, paragraphs and fenced
code (bare backtick delimiters), as annotated by `renderMarkdown`.  A heading
line is a block of its own and interrupts a paragraph; a fence opens a code
block that swallows every line (blank lines included) until the closing
fence; the remaining non-blank lines accumulate into paragraph blocks
separated by blank lines.  `cur` accumulates the current block's line indices
in reverse; `i` is the absolute index of the next line. -/
def gfmBlocksGo (i : ℕ) (cur : Option (List ℕ)) (inFence : Bool) : List Str → List (List ℕ)
  | [] =>
    match cur with
    | none => []
    | some b => [b.reverse]
  | l :: ls =>
    if inFence then
      if isFenceLine l then (i :: cur.getD []).reverse :: gfmBlocksGo (i + 1) none false ls
      else gfmBlocksGo (i + 1) (some (i :: cur.getD [])) true ls
    else if isFenceLine l then
      match cur with
      | none => gfmBlocksGo (i + 1) (some [i]) true ls
      | some b => b.reverse :: gfmBlocksGo (i + 1) (some [i]) true ls
    else if gfmBlank l then
      match cur with
      | none => gfmBlocksGo (i + 1) none false ls
      | some b => b.reverse :: gfmBlocksGo (i + 1) none false ls
    else if atxHeading l then
      match cur with
      | none => [i] :: gfmBlocksGo (i + 1) none false ls
      | some b => b.reverse :: [i] :: gfmBlocksGo (i + 1) none false ls
    else
      gfmBlocksGo (i + 1) (some (i :: cur.getD [])) false ls

/-- Modelled from the spec: the 0-based source line indices of each annotated
block of the rendered document, in document order (block `k` carries
`data-block-index` `k`), for documents within the modelled grammar. -/
def modelBlocks (markdown : Str) : List (List ℕ) :=
  gfmBlocksGo 0 none false (splitLinesRN markdown)

/-- Whether the first line of a line list is GFM-blank (an empty list counts
as blank). -/
def headBlank : List Str → Bool
  | [] => true
  | l :: _ => gfmBlank l

/-- The restricted document class on which the agreement theorem is stated:
every line is GFM-blank, a plain paragraph line, or an ATX heading standing
alone between blank lines (or the document edges); no fenced code.  `prev`
records whether the previous line was non-blank. -/
def simpleLinesOK (prev : Bool) : List Str → Bool
  | [] => true
  | l :: ls =>
    if gfmBlank l then simpleLinesOK false ls
    else if atxHeading l then !prev && headBlank ls && simpleLinesOK true ls
    else plainLine l && simpleLinesOK true ls

/-- A document of the restricted class: headings isolated by blank lines,
paragraphs of plain lines, nothing else. -/
def simpleDoc (markdown : Str) : Bool := simpleLinesOK false (splitLinesRN markdown)

theorem simpleLinesOK_cons (prev : Bool) (a : Str) (as : List Str) :
    simpleLinesOK prev (a :: as) =
      (if gfmBlank a then simpleLinesOK false as
       else if atxHeading a then !prev && headBlank as && simpleLinesOK true as
       else plainLine a && simpleLinesOK true as) := rfl

theorem dropWhile_append_all {p : Char → Bool} (a b : Str)
    (ha : ∀ x ∈ a, p x = true) : (a ++ b).dropWhile p = b.dropWhile p := by
  induction a with
  | nil => rfl
  | cons x xs ih =>
    have hx := ha x (List.mem_cons_self _ _)
    simp only [List.cons_append, List.dropWhile_cons, hx, if_true]
    exact ih (fun y hy => ha y (List.mem_cons_of_mem _ hy))

theorem dropWhile_isJsSpace_of_spaces (l : Str) (c : Char) (cs : Str)
    (h : l.dropWhile (fun x => x = ' ') = c :: cs) (hc : isJsSpace c = false) :
    l.dropWhile isJsSpace = c :: cs := by
  have hsplit : l = l.takeWhile (fun x => x = ' ') ++ (c :: cs) := by
    conv_lhs => rw [← List.takeWhile_append_dropWhile (p := fun x => x = ' ') (l := l)]
    rw [h]
  rw [hsplit, dropWhile_append_all]
  · simp [List.dropWhile_cons, hc]
  · intro y hy
    have hy' : y = ' ' := by
      have h2 := List.mem_takeWhile_imp (p := fun c => decide (c = ' ')) hy
      simpa using h2
    subst hy'
    decide

theorem dropWhile_isJsSpace_of_gfmBlank (l : Str) (h : gfmBlank l = true) :
    l.dropWhile isJsSpace = [] := by
  rw [List.dropWhile_eq_nil_iff]
  intro x hx
  have hall := List.all_eq_true.mp (show l.all (fun c => c = ' ' || c = '\t') = true from h) x hx
  have hx' : x = ' ' ∨ x = '\t' := by simpa using hall
  rcases hx' with h1 | h1 <;> subst h1 <;> decide

theorem isBlankLine_of_gfmBlank (l : Str) (h : gfmBlank l = true) :
    isBlankLine l = true := by
  have hd := dropWhile_isJsSpace_of_gfmBlank l h
  simp [isBlankLine, jsTrim, hd]

theorem isBlankLine_false_of_head (l : Str) (c : Char) (cs : Str)
    (h : l.dropWhile isJsSpace = c :: cs) (hc : isJsSpace c = false) :
    isBlankLine l = false := by
  rw [isBlankLine]
  simp only [decide_eq_false_iff_not]
  intro hlen
  have hall := jsTrim_isEmpty_all_space (s := l) (by simp [List.isEmpty_iff]; exact List.length_eq_zero.mp hlen)
  have hcl : c ∈ l := (List.dropWhile_sublist isJsSpace).subset (h ▸ List.mem_cons_self c cs)
  exact absurd (hall c hcl) (by simp [hc])

theorem gfmBlank_false_of_head (l : Str) (c : Char) (cs : Str)
    (h : l.dropWhile isJsSpace = c :: cs) (hc : (c = ' ' || c = '\t') = false) :
    gfmBlank l = false := by
  by_contra hcon
  have hb : gfmBlank l = true := by
    cases hgb : gfmBlank l with
    | true => rfl
    | false => exact absurd hgb hcon
  have hcl : c ∈ l := (List.dropWhile_sublist isJsSpace).subset (h ▸ List.mem_cons_self c cs)
  exact absurd ((List.all_eq_true.mp hb) c hcl) (by simp_all)

theorem fence_head (l : Str) (h : isFenceLine l = true) :
    ∃ cs, l.dropWhile isJsSpace = Char.ofNat 96 :: cs := by
  have ht : (jsTrim l).take 3 = str "```" := by simpa [isFenceLine] using h
  have hlen : 3 ≤ (jsTrim l).length := by
    have h1 := congrArg List.length ht
    rw [List.length_take] at h1
    have h2 : (str "```").length = 3 := by decide
    omega
  have hdec : ∃ t, l.dropWhile isJsSpace = jsTrim l ++ t := by
    refine ⟨((l.dropWhile isJsSpace).reverse.takeWhile isJsSpace).reverse, ?_⟩
    conv_lhs => rw [← List.reverse_reverse (l.dropWhile isJsSpace)]
    conv_lhs =>
      rw [← List.takeWhile_append_dropWhile (p := isJsSpace)
        (l := (l.dropWhile isJsSpace).reverse)]
    rw [List.reverse_append]
    rfl
  obtain ⟨t, hdw⟩ := hdec
  have htake : (l.dropWhile isJsSpace).take 3 = str "```" := by
    rw [hdw, List.take_append_eq_append_take, ht,
      show 3 - (jsTrim l).length = 0 from by omega, List.take_zero, List.append_nil]
  cases hA : l.dropWhile isJsSpace with
  | nil => rw [hA] at htake; exact absurd htake (by decide)
  | cons a as =>
    rw [hA, List.take_succ_cons] at htake
    have ha : a = Char.ofNat 96 := by
      have h5 := congrArg (fun x => x.headD ' ') htake
      simp only [List.headD_cons] at h5
      rw [h5]
      decide
    exact ⟨as, by rw [ha]⟩

theorem not_fence_of_gfmBlank (l : Str) (h : gfmBlank l = true) :
    isFenceLine l = false := by
  cases hf : isFenceLine l with
  | false => rfl
  | true =>
    obtain ⟨cs, hcs⟩ := fence_head l hf
    rw [dropWhile_isJsSpace_of_gfmBlank l h] at hcs
    exact absurd hcs (by simp)

theorem atx_head (l : Str) (h : atxHeading l = true) :
    ∃ cs, l.dropWhile isJsSpace = '#' :: cs := by
  have h1 : 1 ≤ ((l.dropWhile (fun c => c = ' ')).takeWhile (fun c => c = '#')).length := by
    simp only [atxHeading, Bool.and_eq_true, decide_eq_true_eq] at h
    exact h.1.1.2
  cases hrest : l.dropWhile (fun c => c = ' ') with
  | nil => rw [hrest] at h1; simp at h1
  | cons r rs =>
    rw [hrest] at h1
    have hr : r = '#' := by
      by_contra hne
      rw [List.takeWhile_cons] at h1
      simp [hne] at h1
    subst hr
    exact ⟨rs, dropWhile_isJsSpace_of_spaces l '#' rs hrest (by decide)⟩

theorem not_fence_of_atx (l : Str) (h : atxHeading l = true) :
    isFenceLine l = false := by
  cases hf : isFenceLine l with
  | false => rfl
  | true =>
    obtain ⟨cs, hcs⟩ := fence_head l hf
    obtain ⟨cs', hcs'⟩ := atx_head l h
    rw [hcs] at hcs'
    exact absurd (List.head_eq_of_cons_eq hcs') (by decide)

theorem blank_false_of_atx (l : Str) (h : atxHeading l = true) :
    isBlankLine l = false ∧ gfmBlank l = false := by
  obtain ⟨cs, hcs⟩ := atx_head l h
  exact ⟨isBlankLine_false_of_head l '#' cs hcs (by decide),
    gfmBlank_false_of_head l '#' cs hcs (by decide)⟩

theorem plain_head (l : Str) (h : plainLine l = true) :
    ∃ c cs, l.dropWhile isJsSpace = c :: cs ∧ plainStartChar c = true := by
  simp only [plainLine, Bool.and_eq_true] at h
  cases hrest : l.dropWhile (fun c => c = ' ') with
  | nil => rw [hrest] at h; simp at h
  | cons r rs =>
    rw [hrest] at h
    have hp : plainStartChar r = true := h.2
    have hns : isJsSpace r = false := by
      simp only [plainStartChar, Bool.and_eq_true, Bool.not_eq_true'] at hp
      exact hp.1.1.1
    exact ⟨r, rs, dropWhile_isJsSpace_of_spaces l r rs hrest hns, hp⟩

theorem not_fence_of_plain (l : Str) (h : plainLine l = true) :
    isFenceLine l = false := by
  cases hf : isFenceLine l with
  | false => rfl
  | true =>
    obtain ⟨cs, hcs⟩ := fence_head l hf
    obtain ⟨c, cs', hcs', hp⟩ := plain_head l h
    rw [hcs] at hcs'
    have hc : c = Char.ofNat 96 := (List.head_eq_of_cons_eq hcs').symm
    subst hc
    simp only [plainStartChar, Bool.and_eq_true, Bool.not_eq_true'] at hp
    exact absurd hp.1.2 (by decide)

theorem blank_false_of_plain (l : Str) (h : plainLine l = true) :
    isBlankLine l = false ∧ gfmBlank l = false := by
  obtain ⟨c, cs, hcs, hp⟩ := plain_head l h
  have hns : isJsSpace c = false := by
    simp only [plainStartChar, Bool.and_eq_true, Bool.not_eq_true'] at hp
    exact hp.1.1.1
  refine ⟨isBlankLine_false_of_head l c cs hcs hns, gfmBlank_false_of_head l c cs hcs ?_⟩
  cases hst : (c = ' ' || c = '\t' : Bool) with
  | false => rfl
  | true =>
    rcases Bool.or_eq_true_iff.mp hst with h1 | h1 <;>
      simp only [decide_eq_true_eq] at h1 <;> subst h1 <;> exact absurd hns (by decide)

theorem plain_not_atx (l : Str) (h : plainLine l = true) : atxHeading l = false := by
  simp only [plainLine, Bool.and_eq_true] at h
  cases hrest : l.dropWhile (fun c => c = ' ') with
  | nil => rw [hrest] at h; simp at h
  | cons r rs =>
    rw [hrest] at h
    have hp : plainStartChar r = true := h.2
    have hr : r ≠ '#' := by
      intro hr
      subst hr
      simp only [plainStartChar, Bool.and_eq_true, Bool.not_eq_true'] at hp
      exact absurd hp.1.1.2 (by decide)
    rw [atxHeading, hrest]
    simp [List.takeWhile_cons, hr]

theorem simpleLinesOK_no_fence (ls : List Str) :
    ∀ (prev : Bool), simpleLinesOK prev ls = true →
      ∀ l ∈ ls, isFenceLine l = false := by
  induction ls with
  | nil => intro prev _ l hl; simp at hl
  | cons a as ih =>
    intro prev hok l hl
    by_cases hgb : gfmBlank a
    · have hok' : simpleLinesOK false as = true := by
        simpa [simpleLinesOK, hgb] using hok
      rcases List.mem_cons.mp hl with rfl | hm
      · exact not_fence_of_gfmBlank l hgb
      · exact ih false hok' l hm
    · by_cases hah : atxHeading a
      · have hok' : simpleLinesOK true as = true := by
          rw [simpleLinesOK_cons, if_neg hgb, if_pos hah] at hok
          simp only [Bool.and_eq_true] at hok
          exact hok.2
        rcases List.mem_cons.mp hl with rfl | hm
        · exact not_fence_of_atx l hah
        · exact ih true hok' l hm
      · rw [simpleLinesOK_cons, if_neg hgb, if_neg hah] at hok
        simp only [Bool.and_eq_true] at hok
        rcases List.mem_cons.mp hl with rfl | hm
        · exact not_fence_of_plain l hok.1
        · exact ih true hok.2 l hm

/-- On the restricted document class the modelled block structure coincides
with the blank-line run decomposition: blank lines close blocks in both, an
isolated heading forms exactly the one-line run it sits in, and plain lines
extend the open paragraph exactly as they extend the open run. -/
theorem gfmBlocksGo_eq_runBlocks (n : ℕ) :
    ∀ (ls : List Str), ls.length ≤ n → ∀ (i : ℕ) (cur : Option (List ℕ)),
      simpleLinesOK cur.isSome ls = true →
      gfmBlocksGo i cur false ls = runBlocks i cur false ls := by
  induction n with
  | zero =>
    intro ls h i cur _
    have hnil : ls = [] := List.length_eq_zero.mp (Nat.le_zero.mp h)
    subst hnil
    cases cur <;> rfl
  | succ n ih =>
    intro ls h i cur hok
    match ls with
    | [] => cases cur <;> rfl
    | l :: ls' =>
      have hlen : ls'.length ≤ n := by
        simp only [List.length_cons] at h; omega
      by_cases hgb : gfmBlank l
      · have hfl : isFenceLine l = false := not_fence_of_gfmBlank l hgb
        have hbl : isBlankLine l = true := isBlankLine_of_gfmBlank l hgb
        have hok' : simpleLinesOK false ls' = true := by
          simpa [simpleLinesOK, hgb] using hok
        cases cur with
        | none =>
          rw [show gfmBlocksGo i none false (l :: ls') = gfmBlocksGo (i + 1) none false ls'
              from by simp [gfmBlocksGo, hfl, hgb],
            show runBlocks i none false (l :: ls') = runBlocks (i + 1) none false ls'
              from by simp [runBlocks, hfl, hbl]]
          exact ih ls' hlen (i + 1) none hok'
        | some b =>
          rw [show gfmBlocksGo i (some b) false (l :: ls') =
                b.reverse :: gfmBlocksGo (i + 1) none false ls'
              from by simp [gfmBlocksGo, hfl, hgb],
            show runBlocks i (some b) false (l :: ls') =
                b.reverse :: runBlocks (i + 1) none false ls'
              from by simp [runBlocks, hfl, hbl]]
          rw [ih ls' hlen (i + 1) none hok']
      · by_cases hah : atxHeading l
        · have hfl : isFenceLine l = false := not_fence_of_atx l hah
          have hbl : isBlankLine l = false := (blank_false_of_atx l hah).1
          rw [simpleLinesOK_cons, if_neg hgb, if_pos hah] at hok
          simp only [Bool.and_eq_true] at hok
          obtain ⟨⟨hprev, hnext⟩, hok'⟩ := hok
          have hcur : cur = none := by
            cases cur with
            | none => rfl
            | some b => simp at hprev
          subst hcur
          rw [show gfmBlocksGo i none false (l :: ls') =
                [i] :: gfmBlocksGo (i + 1) none false ls'
              from by simp [gfmBlocksGo, hfl, hgb, hah],
            show runBlocks i none false (l :: ls') = runBlocks (i + 1) (some [i]) false ls'
              from by simp [runBlocks, hfl, hbl]]
          cases ls' with
          | nil => simp [gfmBlocksGo, runBlocks]
          | cons l2 ls'' =>
            have hgb2 : gfmBlank l2 = true := by simpa [headBlank] using hnext
            have hfl2 : isFenceLine l2 = false := not_fence_of_gfmBlank l2 hgb2
            have hbl2 : isBlankLine l2 = true := isBlankLine_of_gfmBlank l2 hgb2
            have hok'' : simpleLinesOK false ls'' = true := by
              simpa [simpleLinesOK, hgb2] using hok'
            have hlen2 : ls''.length ≤ n := by
              simp only [List.length_cons] at h; omega
            rw [show gfmBlocksGo (i + 1) none false (l2 :: ls'') =
                  gfmBlocksGo (i + 1 + 1) none false ls''
                from by simp [gfmBlocksGo, hfl2, hgb2],
              show runBlocks (i + 1) (some [i]) false (l2 :: ls'') =
                  [i].reverse :: runBlocks (i + 1 + 1) none false ls''
                from by simp [runBlocks, hfl2, hbl2]]
            rw [ih ls'' hlen2 (i + 1 + 1) none hok'']
            rfl
        · rw [simpleLinesOK_cons, if_neg hgb, if_neg hah] at hok
          simp only [Bool.and_eq_true] at hok
          obtain ⟨hpl, hok'⟩ := hok
          have hfl : isFenceLine l = false := not_fence_of_plain l hpl
          have hbl : isBlankLine l = false := (blank_false_of_plain l hpl).1
          rw [show gfmBlocksGo i cur false (l :: ls') =
                gfmBlocksGo (i + 1) (some (i :: cur.getD [])) false ls'
              from by cases cur <;> simp [gfmBlocksGo, hfl, hgb, hah],
            show runBlocks i cur false (l :: ls') =
                runBlocks (i + 1) (some (i :: cur.getD [])) false ls'
              from by cases cur <;> simp [runBlocks, hfl, hbl]]
          exact ih ls' hlen (i + 1) (some (i :: cur.getD [])) hok'

/-- C1 counterexample: the text-based mapping disagrees with the annotated
block indices.  In the document with lines `# One` and `Paragraph`, the
heading and the paragraph are two annotated blocks (indices 0 and 1) inside a
single non-blank run, and `getBlockIndexForLine` returns 0 for source line 2
instead of 1.  Conversely, for the five-line document wrapping `a`, a blank
line and `b` in a backtick fence, the rendered output is a single code block
(index 0), but the blank-line heuristic places line 4 in a second run and
returns 1. -/
theorem C1_counterexample_heading_paragraph :
    (1 ∈ (modelBlocks (str "# One\nParagraph")).getD 1 [] ∧
      getBlockIndexForLine (str "# One\nParagraph") 2 = (0 : ℤ)) ∧
    (3 ∈ (modelBlocks (str "```\na\n\nb\n```")).getD 0 [] ∧
      getBlockIndexForLine (str "```\na\n\nb\n```") 4 = (1 : ℤ)) := by
  decide

/-- C1 (amended): on the restricted document class of `simpleDoc` — every
line blank, a plain paragraph line, or an ATX heading isolated by blank
lines, with no fenced code — the text-based mapping agrees with the modelled
block indices: any 0-based source line `j` belonging to the `k`-th annotated
block satisfies `getBlockIndexForLine markdown (j+1) = k`.  Outside the
class the two diverge: a heading directly followed by a paragraph yields two
annotated blocks in one run, and fenced code spanning a blank line yields one
block over several runs. -/
theorem C1_blockIndex_agrees_on_simple_docs (md : Str)
    (hs : simpleDoc md = true)
    (k j : ℕ) (hj : j ∈ (modelBlocks md).getD k []) :
    getBlockIndexForLine md (j + 1) = (k : ℤ) := by
  have hnf : ∀ l ∈ splitLinesRN md, isFenceLine l = false :=
    simpleLinesOK_no_fence (splitLinesRN md) false hs
  have heq : gfmBlocksGo 0 none false (splitLinesRN md) =
      runBlocks 0 none false (splitLinesRN md) :=
    gfmBlocksGo_eq_runBlocks (splitLinesRN md).length (splitLinesRN md) le_rfl 0 none hs
  have hj' : j ∈ (runBlocks 0 none false (splitLinesRN md)).getD k [] := by
    rw [← heq]
    simpa [modelBlocks] using hj
  rcases runBlocks_mem (splitLinesRN md) 0 none k j hnf hj' with ⟨b, hb, _, _⟩ | ⟨_, h2, h3⟩
  · cases hb
  · exact getBlockIndexForLine_of_runs md j k (by simpa using h2) (by simpa using h3)

theorem C1_witness :
    simpleDoc (str "# One\n\nParagraph\n\nMore text\n") = true ∧
      4 ∈ (modelBlocks (str "# One\n\nParagraph\n\nMore text\n")).getD 2 [] ∧
      getBlockIndexForLine (str "# One\n\nParagraph\n\nMore text\n") 5 = (2 : ℤ) :=
  ⟨by decide, by decide,
    C1_blockIndex_agrees_on_simple_docs (str "# One\n\nParagraph\n\nMore text\n")
      (by decide) 2 4 (by decide)⟩

/-! ## Sanitizer (spec §4.2).  `renderMarkdown` sanitizes with
`DOMPurify.sanitize(html, { FORBID_TAGS: ["script", "style", "iframe"],
USE_PROFILES: { html: true } })`; DOMPurify is an external collaborator whose
code is not in the repository, so the sanitizer is modelled from the spec. -/

/-- The tags forbidden outright (`FORBID_TAGS`), whose content is dropped. -/
def dangerousTags : List Str := [str "script", str "style", str "iframe"]

/-- Modelled from the spec: the "standard HTML document profile" of allowed
tags (`USE_PROFILES: html`), a representative allow-list; an element with a
tag outside the profile is removed but its (sanitised) children are kept. -/
def allowedTags : List Str :=
  [str "a", str "abbr", str "b", str "blockquote", str "br", str "button",
   str "code", str "div", str "em", str "h1", str "h2", str "h3", str "h4",
   str "h5", str "h6", str "hr", str "i", str "img", str "input", str "kbd",
   str "li", str "ol", str "p", str "pre", str "samp", str "section",
   str "span", str "strong", str "sub", str "sup", str "table", str "tbody",
   str "td", str "th", str "thead", str "tr", str "u", str "ul"]

/-- An inline event-handler attribute: its lowercased name starts with `on`. -/
def isEventHandlerAttr (name : Str) : Bool :=
  (name.map Char.toLower).take 2 = str "on"

/-- Attributes carrying a URI. -/
def uriAttrs : List Str := [str "href", str "src", str "action", str "formaction"]

/-- A `javascript:` URI after trimming and lowercasing. -/
def hasJsScheme (value : Str) : Bool :=
  ((jsTrim value).map Char.toLower).take 11 = str "javascript:"

/-- Modelled from the spec: an attribute survives sanitisation iff it is not
an event handler and not a URI attribute with a `javascript:` value. -/
def allowedAttr (a : Str × Str) : Bool :=
  !isEventHandlerAttr a.1 &&
    !(uriAttrs.contains (a.1.map Char.toLower) && hasJsScheme a.2)

/-- Modelled from the spec §4.2: the sanitizer strips unsafe HTML from parser
output while preserving the permitted surface — forbidden tags are dropped
with their content, unknown tags are removed keeping their sanitised children,
allowed elements keep only safe attributes. -/
def sanitizeF : List HNode → List HNode
  | [] => []
  | .text s :: rest => .text s :: sanitizeF rest
  | .elem t attrs ch :: rest =>
    if dangerousTags.contains (t.map Char.toLower) then sanitizeF rest
    else if allowedTags.contains (t.map Char.toLower) then
      .elem t (attrs.filter allowedAttr) (sanitizeF ch) :: sanitizeF rest
    else sanitizeF ch ++ sanitizeF rest
termination_by ns => sizeOf ns
decreasing_by all_goals simp_wf <;> omega

/-- A forest free of executable content: no `script`/`style`/`iframe`
element, no event-handler attribute, no `javascript:` URI attribute, at any
depth. -/
def forestSafe : List HNode → Bool
  | [] => true
  | .text _ :: rest => forestSafe rest
  | .elem t attrs ch :: rest =>
    !dangerousTags.contains (t.map Char.toLower) && attrs.all allowedAttr &&
      forestSafe ch && forestSafe rest
termination_by ns => sizeOf ns
decreasing_by all_goals simp_wf <;> omega

/-- Serialisation of a text node escapes markup characters, so text can never
contribute a literal `<script` to the html string. -/
def escapeHtml : Str → Str
  | [] => []
  | c :: rest =>
    (if c = '&' then str "&amp;"
     else if c = '<' then str "&lt;"
     else if c = '>' then str "&gt;"
     else if c = '"' then str "&quot;"
     else [c]) ++ escapeHtml rest

theorem forestSafe_append (a b : List HNode) :
    forestSafe (a ++ b) = (forestSafe a && forestSafe b) := by
  induction a with
  | nil => simp [forestSafe]
  | cons n rest ih =>
    cases n with
    | text s => simp [forestSafe, ih]
    | elem t at2 ch =>
      simp only [List.cons_append, forestSafe, ih]
      cases forestSafe ch <;> cases forestSafe rest <;> cases forestSafe b <;> simp

theorem escapeHtml_no_lt (s : Str) : '<' ∉ escapeHtml s := by
  induction s with
  | nil => simp [escapeHtml]
  | cons c rest ih =>
    intro hm
    rcases List.mem_append.mp hm with hm1 | hm1
    · by_cases h1 : c = '&'
      · simp [h1] at hm1; exact absurd hm1 (by decide)
      · by_cases h2 : c = '<'
        · simp [h1, h2] at hm1; exact absurd hm1 (by decide)
        · by_cases h3 : c = '>'
          · simp [h1, h2, h3] at hm1; exact absurd hm1 (by decide)
          · by_cases h4 : c = '"'
            · simp [h1, h2, h3, h4] at hm1; exact absurd hm1 (by decide)
            · simp [h1, h2, h3, h4] at hm1; exact h2 hm1.symm
    · exact ih hm1

/-- C2: for every parsed input forest, the sanitised output contains no
`script` (nor `style`/`iframe`) element, no event-handler attribute and no
`javascript:` URI attribute at any depth, and serialised text escapes `<`, so
no literal `<script>` tag can appear in the html string `renderMarkdown`
returns. -/
theorem C2_sanitize_no_script (ns : List HNode) :
    forestSafe (sanitizeF ns) = true ∧ ∀ s : Str, '<' ∉ escapeHtml s := by
  refine ⟨?_, escapeHtml_no_lt⟩
  have main : ∀ (k : ℕ) (ns : List HNode), sizeOf ns ≤ k →
      forestSafe (sanitizeF ns) = true := by
    intro k
    induction k with
    | zero =>
      intro ns h
      cases ns with
      | nil => simp [sanitizeF, forestSafe]
      | cons n rest => simp at h
    | succ k ih =>
      intro ns h
      match ns with
      | [] => simp [sanitizeF, forestSafe]
      | .text s :: rest =>
        have hr : sizeOf rest ≤ k := by simp at h; omega
        simp [sanitizeF, forestSafe, ih rest hr]
      | .elem t attrs ch :: rest =>
        have hr : sizeOf rest ≤ k := by simp at h; omega
        have hch : sizeOf ch ≤ k := by simp at h; omega
        by_cases hd : (t.map Char.toLower) ∈ dangerousTags
        · simp [sanitizeF, hd, ih rest hr]
        · by_cases ha : (t.map Char.toLower) ∈ allowedTags
          · have hattr : (attrs.filter allowedAttr).all allowedAttr = true := by
              simp only [List.all_eq_true]
              intro x hx
              exact (List.mem_filter.mp hx).2
            simp [sanitizeF, forestSafe, hd, ha, hattr, ih rest hr, ih ch hch]
          · rw [show sanitizeF (.elem t attrs ch :: rest) =
                sanitizeF ch ++ sanitizeF rest from by simp [sanitizeF, hd, ha]]
            rw [forestSafe_append, ih ch hch, ih rest hr]
            rfl
  exact main (sizeOf ns) ns le_rfl

end MdEditor
